import Mathlib

/-!
Verification of the core of the `lazi-cli` repository: the append-only
execution-log store with event/batch linkage (`lazi-core-cli/src/logger.ts`,
`lazi-core-cli/src/types.ts`) and the script-assembly pipeline
(`scriptbuilder/cli.js`, `scriptbuilder/templateEngine.js`).

The TypeScript/JavaScript sources are shallowly embedded: string-processing
functions are translated to functions over `List Char` (JavaScript strings are
scanned left to right, so `String.prototype.includes`, `startsWith`,
`split(sep)` and global literal `replace` become structural recursions over
character lists); file-backed state becomes explicit state passing.
-/

/-! ## Character-list utilities mirroring the JavaScript string primitives -/

/-- Boolean prefix test on character lists, mirroring how a JavaScript
regular-expression or substring match is anchored at a position. -/
def prefixB : List Char → List Char → Bool
  | [], _ => true
  | _ :: _, [] => false
  | p :: ps, c :: cs => p == c && prefixB ps cs

/-- `includesSub hay sub` mirrors JavaScript `hay.includes(sub)`:
`sub` occurs contiguously somewhere in `hay`. -/
def includesSub : List Char → List Char → Bool
  | [], sub => sub.isEmpty
  | c :: t, sub => prefixB sub (c :: t) || includesSub t sub

theorem prefixB_refl : ∀ l : List Char, prefixB l l = true := by
  intro l
  induction l with
  | nil => rfl
  | cons c t ih => simp [prefixB, ih]

theorem prefixB_append : ∀ (l t : List Char), prefixB l (l ++ t) = true := by
  intro l t
  induction l with
  | nil => rfl
  | cons c cs ih => simp [prefixB, ih]

/-- If `sub` occurs after some discarded head `pre`, `includesSub` finds it. -/
theorem includesSub_append_of_self : ∀ (pre sub : List Char),
    includesSub (pre ++ sub) sub = true := by
  intro pre sub
  induction pre with
  | nil =>
    cases sub with
    | nil => simp [includesSub]
    | cons c t => simp [includesSub, prefixB_refl]
  | cons c t ih =>
    simp only [List.cons_append, includesSub, Bool.or_eq_true]
    exact Or.inr ih

/-! ## C3: the ID allocator (`Logger.getNextLogId`, logger.ts lines 12-29) -/

/-- Value of the persisted counter as the code reads it: the counter file's
integer when the file exists; an absent file behaves as zero (the code then
writes `1`, i.e. `0 + 1`). -/
def counterValue : Option Nat → Nat
  | some c => c
  | none => 0

/-- One successful (no-I/O-failure) call to `Logger.getNextLogId`.  The state
is the content of the counter file (`none` = file absent). Reads the counter,
increments, persists the new value, and returns it; on an absent file it
persists and returns `1`. -/
def getNextLogId : Option Nat → Nat × Option Nat
  | some counter => (counter + 1, some (counter + 1))
  | none => (1, some 1)

/-- The sequence of ids returned by `n` consecutive calls to
`Logger.getNextLogId` starting from counter-file state `s`. -/
def runAlloc : Option Nat → Nat → List Nat
  | _, 0 => []
  | s, Nat.succ n => (getNextLogId s).1 :: runAlloc (getNextLogId s).2 n

theorem runAlloc_some_head : ∀ (n : Nat) (c : Nat),
    (runAlloc (some c) (n + 1)).head? = some (c + 1) := by
  intro n c
  simp [runAlloc, getNextLogId]

theorem runAlloc_chain : ∀ (n : Nat) (s : Option Nat),
    List.Chain' (· < ·) (runAlloc s n) := by
  intro n
  induction n with
  | zero => intro s; simp [runAlloc]
  | succ m ih =>
    intro s
    cases s with
    | some c =>
      rw [runAlloc]
      rw [List.chain'_cons']
      refine ⟨?_, ih _⟩
      intro y hy
      cases m with
      | zero => simp [runAlloc] at hy
      | succ k =>
        rw [show (getNextLogId (some c)).2 = some (c + 1) from rfl] at hy
        rw [runAlloc_some_head k (c + 1)] at hy
        cases hy
        show (getNextLogId (some c)).1 < c + 1 + 1
        simp [getNextLogId]
    | none =>
      rw [runAlloc]
      rw [List.chain'_cons']
      refine ⟨?_, ih _⟩
      intro y hy
      cases m with
      | zero => simp [runAlloc] at hy
      | succ k =>
        rw [show (getNextLogId none).2 = some 1 from rfl] at hy
        rw [runAlloc_some_head k 1] at hy
        cases hy
        show (getNextLogId none).1 < 1 + 1
        simp [getNextLogId]

/-- C3: For any sequence of calls to the ID allocator (`Logger.getNextLogId`)
in which no I/O failure occurs, each returned value is strictly greater than
the previously returned value; and each call reads the persisted counter
(an absent counter file reads as `0`), increments it, persists the new value,
and returns it. -/
theorem c3_getNextLogId_monotonic (s : Option Nat) (n : Nat) :
    List.Chain' (· < ·) (runAlloc s n) ∧
      ∀ t : Option Nat, getNextLogId t = (counterValue t + 1, some (counterValue t + 1)) := by
  refine ⟨runAlloc_chain n s, ?_⟩
  intro t
  cases t <;> rfl

/-! ## C6: `splitBatchCommands` and the batch-mode guard (types.ts 1696-1718, 1838-1840) -/

/-- Embedding of `splitBatchCommands` (types.ts lines 1696-1718): the loop's
`current` accumulator is the first argument; at each `THEN` token the current
batch is pushed if non-empty; the trailing batch is pushed if non-empty. -/
def splitBatchGo : List String → List String → List (List String)
  | current, [] => if current.isEmpty then [] else [current]
  | current, a :: rest =>
    if a = "THEN" then
      if current.isEmpty then splitBatchGo [] rest else current :: splitBatchGo [] rest
    else splitBatchGo (current ++ [a]) rest

/-- `splitBatchCommands` from types.ts: split the raw argument tokens into
sub-command batches at each `THEN`, dropping empty batches. -/
def splitBatchCommands (args : List String) : List (List String) :=
  splitBatchGo [] args

/-- Modelled from the spec: "tokens are partitioned into sub-command lines at
every occurrence of a reserved separator token" — the raw partition of the
token list at every `THEN`, keeping empty partitions. -/
def partsAtTHEN : List String → List (List String)
  | [] => [[]]
  | a :: rest =>
    if a = "THEN" then [] :: partsAtTHEN rest
    else
      match partsAtTHEN rest with
      | c :: cs => (a :: c) :: cs
      | [] => [[a]]

/-- Modelled from the spec: the partition at every separator occurrence with
"empty partitions are dropped". -/
def specSplitBatches (args : List String) : List (List String) :=
  (partsAtTHEN args).filter (fun b => !b.isEmpty)

theorem partsAtTHEN_ne_nil : ∀ args : List String, partsAtTHEN args ≠ [] := by
  intro args
  induction args with
  | nil => simp [partsAtTHEN]
  | cons a rest ih =>
    by_cases h : a = "THEN"
    · simp [partsAtTHEN, h]
    · simp only [partsAtTHEN, if_neg h]
      cases hp : partsAtTHEN rest with
      | nil => exact absurd hp ih
      | cons c cs => simp

theorem splitBatchGo_eq_parts : ∀ (args : List String) (current : List String),
    splitBatchGo current args =
      ((current ++ (partsAtTHEN args).headD []) :: (partsAtTHEN args).tail).filter
        (fun b => !b.isEmpty) := by
  intro args
  induction args with
  | nil =>
    intro current
    simp only [partsAtTHEN, List.headD, List.tail, splitBatchGo]
    by_cases h : current.isEmpty
    · simp_all [List.isEmpty_iff]
    · simp only [if_neg h, List.append_nil, List.filter]
      rw [show (!current.isEmpty) = true by simp_all]
  | cons a rest ih =>
    intro current
    by_cases h : a = "THEN"
    · obtain ⟨c, cs, hp⟩ : ∃ c cs, partsAtTHEN rest = c :: cs := by
        cases hq : partsAtTHEN rest with
        | nil => exact absurd hq (partsAtTHEN_ne_nil rest)
        | cons c cs => exact ⟨c, cs, rfl⟩
      simp only [splitBatchGo, partsAtTHEN, if_pos h, hp]
      by_cases hc : current.isEmpty
      · have : current = [] := List.isEmpty_iff.mp hc
        subst this
        rw [ih []]
        simp [hp, List.filter]
      · simp only [if_neg hc]
        rw [ih []]
        simp only [hp, List.headD, List.tail, List.nil_append, List.append_nil, List.filter]
        rw [show (!current.isEmpty) = true by simp_all]
    · obtain ⟨c, cs, hp⟩ : ∃ c cs, partsAtTHEN rest = c :: cs := by
        cases hq : partsAtTHEN rest with
        | nil => exact absurd hq (partsAtTHEN_ne_nil rest)
        | cons c cs => exact ⟨c, cs, rfl⟩
      simp only [splitBatchGo, partsAtTHEN, if_neg h, hp]
      rw [ih (current ++ [a])]
      simp [hp, List.append_assoc]

theorem splitBatchCommands_eq_spec (args : List String) :
    splitBatchCommands args = specSplitBatches args := by
  obtain ⟨c, cs, hp⟩ : ∃ c cs, partsAtTHEN args = c :: cs := by
    cases hq : partsAtTHEN args with
    | nil => exact absurd hq (partsAtTHEN_ne_nil args)
    | cons c cs => exact ⟨c, cs, rfl⟩
  rw [splitBatchCommands, splitBatchGo_eq_parts, specSplitBatches, hp]
  simp

/-- The three ways the top of types.ts can dispatch: batch orchestration
(more than one batch), normal Commander parsing (exactly one batch), or
neither (no batch at all, e.g. an empty argument list). -/
inductive DispatchMode
  | batchMode
  | singleParse
  | noDispatch
deriving DecidableEq

/-- The dispatch decision of types.ts: the batch block at line 1723 runs when
`commandBatches.length > 1`; `program.parse()` at line 1838 runs only when
`commandBatches.length === 1`. -/
def dispatchOf (args : List String) : DispatchMode :=
  if (splitBatchCommands args).length > 1 then DispatchMode.batchMode
  else if (splitBatchCommands args).length = 1 then DispatchMode.singleParse
  else DispatchMode.noDispatch

theorem splitBatchGo_no_then : ∀ (args current : List String), "THEN" ∉ args →
    splitBatchGo current args = if (current ++ args).isEmpty then [] else [current ++ args] := by
  intro args
  induction args with
  | nil => intro current _; simp [splitBatchGo]
  | cons a rest ih =>
    intro current hnot
    have ha : a ≠ "THEN" := by
      intro h; exact hnot (by simp [h])
    have hrest : "THEN" ∉ rest := by
      intro h; exact hnot (by simp [h])
    simp only [splitBatchGo, if_neg (by exact fun h => ha h)]
    rw [ih (current ++ [a]) hrest]
    simp

/-- C6: `splitBatchCommands` partitions the token list at every `THEN`,
drops empty partitions (so no returned batch is empty), and when no separator
is present (and the argument list is non-empty) the result is the single
partition `[args]`, in which case the batch orchestrator is bypassed and
normal single-command parsing runs. -/
theorem c6_splitBatchCommands_spec (args : List String) :
    splitBatchCommands args = specSplitBatches args ∧
      (∀ b ∈ splitBatchCommands args, b ≠ []) ∧
      ("THEN" ∉ args → args ≠ [] →
        splitBatchCommands args = [args] ∧ dispatchOf args = DispatchMode.singleParse) := by
  refine ⟨splitBatchCommands_eq_spec args, ?_, ?_⟩
  · intro b hb
    rw [splitBatchCommands_eq_spec] at hb
    have := List.of_mem_filter hb
    simpa [List.isEmpty_iff] using this
  · intro hnot hne
    have h1 : splitBatchCommands args = [args] := by
      rw [splitBatchCommands, splitBatchGo_no_then args [] hnot]
      simp [List.isEmpty_iff, hne]
    refine ⟨h1, ?_⟩
    rw [dispatchOf, h1]
    simp

/-- Closed witness for C6 at a concrete argument list without a separator. -/
theorem c6_splitBatchCommands_witness :
    splitBatchCommands ["run", "build"] = [["run", "build"]] ∧
      dispatchOf ["run", "build"] = DispatchMode.singleParse :=
  (c6_splitBatchCommands_spec ["run", "build"]).2.2 (by decide) (by decide)

/-! ## C5: the batch orchestrator (types.ts lines 1723-1830) -/

/-- Outcome of spawning one sub-command: the child either closes with an exit
code (`null` when killed by a signal) or the spawn itself errors. -/
inductive SpawnOutcome
  | close (exitCode : Option Int)
  | procError (message : String)

/-- Abstract log records written by the batch block via
`Logger.writeBatchStart` / `writeBatchStep` / `writeBatchEnd`.  The
wall-clock duration is not modelled (recorded as `""`). -/
inductive BatchRec
  | batchStart (totalCommands : Nat)
  | batchStep (parentEventId stepNumber : Nat) (commandName fullCommand : String)
      (exitCode : Int) (success : Bool) (error : Option String)
  | batchEnd (parentEventId totalCommands successful failed : Nat)
deriving DecidableEq

/-- The sub-command loop of the batch block (types.ts lines 1741-1806):
`i` is the 1-based step number, `succ`/`fail` the running counters.  On
`close`, success means exit code strictly equal to `0` (a `null` code is a
failure recorded as exit code `0`); on a spawn error the step is recorded
with exit code `1` and the loop continues. Returns the final counters and
the `batch-step` records in order. -/
def runBatchGo (eventId : Nat) :
    Nat → Nat → Nat → List (List String × SpawnOutcome) → Nat × Nat × List BatchRec
  | _, succ, fail, [] => (succ, fail, [])
  | i, succ, fail, (batch, SpawnOutcome.close exitCode) :: rest =>
    let success := exitCode == some 0
    let succ' := if success then succ + 1 else succ
    let fail' := if success then fail else fail + 1
    let rec_ := BatchRec.batchStep eventId i (batch.headD "") (String.intercalate " " batch)
      (exitCode.getD 0) success none
    let (s, f, recs) := runBatchGo eventId (i + 1) succ' fail' rest
    (s, f, rec_ :: recs)
  | i, succ, fail, (batch, SpawnOutcome.procError msg) :: rest =>
    let rec_ := BatchRec.batchStep eventId i (batch.headD "") (String.intercalate " " batch)
      1 false (some msg)
    let (s, f, recs) := runBatchGo eventId (i + 1) succ (fail + 1) rest
    (s, f, rec_ :: recs)

/-- The whole batch block: one `batch-start` record, the sequential
sub-command loop, one `batch-end` record with the final counters, and the
final process exit code `failureCount > 0 ? 1 : 0`. -/
def runBatch (eventId : Nat) (items : List (List String × SpawnOutcome)) :
    List BatchRec × Nat :=
  let r := runBatchGo eventId 1 0 0 items
  (BatchRec.batchStart items.length :: r.2.2 ++
      [BatchRec.batchEnd eventId items.length r.1 r.2.1],
    if r.2.1 > 0 then 1 else 0)

/-- The expected `batch-step` records for a run in which every sub-command
closes with an exit code: one record per sub-command, numbered from `i`. -/
def closedBatchSteps (eventId : Nat) : Nat → List (List String × Int) → List BatchRec
  | _, [] => []
  | i, (batch, code) :: rest =>
    BatchRec.batchStep eventId i (batch.headD "") (String.intercalate " " batch)
        code (code == 0) none ::
      closedBatchSteps eventId (i + 1) rest

/-- A batch input in which every sub-command runs to completion with the given
exit code. -/
def closedItems (items : List (List String × Int)) : List (List String × SpawnOutcome) :=
  items.map (fun p => (p.1, SpawnOutcome.close (some p.2)))

theorem runBatchGo_closed (eventId : Nat) : ∀ (items : List (List String × Int))
    (i succ fail : Nat),
    runBatchGo eventId i succ fail (closedItems items) =
      (succ + items.countP (fun p => p.2 == 0),
        fail + items.countP (fun p => !(p.2 == 0)),
        closedBatchSteps eventId i items) := by
  intro items
  induction items with
  | nil => intro i succ fail; simp [closedItems, runBatchGo, closedBatchSteps]
  | cons p rest ih =>
    intro i succ fail
    obtain ⟨batch, code⟩ := p
    have hrest : closedItems ((batch, code) :: rest) =
        (batch, SpawnOutcome.close (some code)) :: closedItems rest := rfl
    rw [hrest]
    have hopt : ((some code : Option Int) == some 0) = (code == (0 : Int)) := rfl
    cases hc : (code == (0 : Int)) with
    | true =>
      simp only [runBatchGo, hopt, hc, Option.getD_some, if_pos, ih, closedBatchSteps,
        List.countP_cons, Prod.mk.injEq]
      refine ⟨by omega, by simp; try omega, by simp [hc]⟩
    | false =>
      simp only [runBatchGo, hopt, hc, Option.getD_some, ih, closedBatchSteps,
        List.countP_cons, Prod.mk.injEq, Bool.false_eq_true, if_false]
      refine ⟨by omega, by simp; try omega, by simp [hc]⟩

theorem closedBatchSteps_length (eventId : Nat) : ∀ (items : List (List String × Int)) (i : Nat),
    (closedBatchSteps eventId i items).length = items.length := by
  intro items
  induction items with
  | nil => intro i; rfl
  | cons p rest ih => intro i; simp [closedBatchSteps, ih]

/-- C5: for a batch of `n` sub-commands that all run to completion, the
orchestrator produces one `batch-step` record per sub-command in sequence
(numbered `1..n`), a `batch-end` record whose `successful`/`failed` counts
are the numbers of sub-commands that exited zero / non-zero, and the final
process exit code is `0` exactly when every sub-command exited zero and `1`
otherwise. -/
theorem c5_runBatch_spec (eventId : Nat) (items : List (List String × Int)) :
    (runBatch eventId (closedItems items)).1 =
        BatchRec.batchStart items.length :: closedBatchSteps eventId 1 items ++
          [BatchRec.batchEnd eventId items.length
            (items.countP (fun p => p.2 == 0)) (items.countP (fun p => !(p.2 == 0)))] ∧
      (closedBatchSteps eventId 1 items).length = items.length ∧
      (runBatch eventId (closedItems items)).2 =
        (if items.all (fun p => p.2 == 0) then 0 else 1) := by
  have hgo := runBatchGo_closed eventId items 1 0 0
  have hlen : (closedItems items).length = items.length := by simp [closedItems]
  refine ⟨?_, closedBatchSteps_length eventId items 1, ?_⟩
  · simp only [runBatch, hgo, hlen, Nat.zero_add]
  · simp only [runBatch, hgo, hlen, Nat.zero_add]
    by_cases h : items.all (fun p => p.2 == 0)
    · have hz : items.countP (fun p => !(p.2 == 0)) = 0 := by
        rw [List.countP_eq_zero]
        intro a ha
        have := List.all_eq_true.mp h a ha
        simp_all
      rw [hz, if_neg (by omega), if_pos h]
    · have hpos : 0 < items.countP (fun p => !(p.2 == 0)) := by
        rw [List.countP_pos_iff]
        rw [List.all_eq_true] at h
        push_neg at h
        obtain ⟨a, ha, hne⟩ := h
        exact ⟨a, ha, by simp_all⟩
      rw [if_pos hpos, if_neg h]

/-! ## C8: function-form generator invocation (templateEngine.js lines 64-97) -/

/-- Result of calling the dynamically compiled generator function (the
`new Function(...)` value): either a returned value (`none` models a
`null`/`undefined` return, which `String(result ?? '')` turns into `""`),
or a thrown exception carrying `error.message`. -/
inductive GenResult
  | ok (text : Option String)
  | thrown (message : String)

/-- The wrapper that `compileFunctionString` installs around the compiled
function (templateEngine.js lines 84-92): a normal result is stringified
(`null` becomes `""`); a thrown exception is caught and converted to
`# Error: <message>` (or `# Error: Unknown error` for an empty message). -/
def wrapGeneratorResult : GenResult → String
  | GenResult.ok t => t.getD ""
  | GenResult.thrown m => "# Error: " ++ (if m = "" then "Unknown error" else m)

/-- Invoking the generator returned by `compileFunctionString` on a config and
branch map.  The dynamically compiled function itself is the oracle `g`. -/
def compiledFunctionInvoke
    (g : List (String × Option String) → List (String × String) → GenResult)
    (config : List (String × Option String)) (branches : List (String × String)) : String :=
  wrapGeneratorResult (g config branches)

/-- One node's contribution to the assembled script
(cli.js lines 201-208): label comment, step comment, generated code,
blank-line separator. -/
def nodeBlockChars (nb : String × String × String) : List Char :=
  "# ".toList ++ nb.1.toList ++ "\n# Step: ".toList ++ nb.2.1.toList ++ "\n".toList ++
    nb.2.2.toList ++ "\n\n".toList

/-- The node loop of `generateScript` (cli.js lines 201-208): blocks are
concatenated independently, one per node in order. -/
def assembleNodeBlocks : List (String × String × String) → List Char
  | [] => []
  | nb :: rest => nodeBlockChars nb ++ assembleNodeBlocks rest

theorem assembleNodeBlocks_append : ∀ a b,
    assembleNodeBlocks (a ++ b) = assembleNodeBlocks a ++ assembleNodeBlocks b := by
  intro a b
  induction a with
  | nil => rfl
  | cons x xs ih => simp [assembleNodeBlocks, ih]

/-- C8: if the compiled function-form generator raises an exception on some
input, invoking the compiled generator does not propagate it: the result is
the comment-prefixed string `# Error: <message>` (which starts with `# ` and
contains the error message), and in the assembled script only that node's
block is affected — the blocks of all other nodes are concatenated
unchanged around it. -/
theorem c8_generator_failure_isolated
    (g : List (String × Option String) → List (String × String) → GenResult)
    (config : List (String × Option String)) (branches : List (String × String))
    (m : String) (h : g config branches = GenResult.thrown m) :
    compiledFunctionInvoke g config branches =
        "# Error: " ++ (if m = "" then "Unknown error" else m) ∧
      prefixB "# ".toList (compiledFunctionInvoke g config branches).toList = true ∧
      (m ≠ "" → includesSub (compiledFunctionInvoke g config branches).toList m.toList = true) ∧
      ∀ (pre post : List (String × String × String)) (name nid : String),
        assembleNodeBlocks
            (pre ++ (name, nid, compiledFunctionInvoke g config branches) :: post) =
          assembleNodeBlocks pre ++
            nodeBlockChars (name, nid, compiledFunctionInvoke g config branches) ++
            assembleNodeBlocks post := by
  have h1 : compiledFunctionInvoke g config branches =
      "# Error: " ++ (if m = "" then "Unknown error" else m) := by
    rw [compiledFunctionInvoke, h, wrapGeneratorResult]
  refine ⟨h1, ?_, ?_, ?_⟩
  · rw [h1]
    by_cases hm : m = ""
    · rw [if_pos hm]
      decide
    · rw [if_neg hm]
      have : ("# Error: " ++ m).toList = "# ".toList ++ ("Error: ".toList ++ m.toList) := by
        simp [String.toList]
      rw [this, prefixB_append]
  · intro hm
    rw [h1, if_neg hm]
    have : ("# Error: " ++ m).toList = "# Error: ".toList ++ m.toList := by
      simp [String.toList]
    rw [this]
    exact includesSub_append_of_self _ _
  · intro pre post name nid
    rw [assembleNodeBlocks_append]
    simp [assembleNodeBlocks]

/-- A concrete compiled generator function that always throws. -/
def cGenThrowBoom : List (String × Option String) → List (String × String) → GenResult :=
  fun _ _ => GenResult.thrown "boom"

/-- Closed witness for C8: a throwing generator yields the inline comment
`# Error: boom`, which contains the message. -/
theorem c8_generator_failure_isolated_witness :
    compiledFunctionInvoke cGenThrowBoom [] [] = "# Error: " ++ "boom" ∧
      includesSub (compiledFunctionInvoke cGenThrowBoom [] []).toList "boom".toList = true := by
  have h := c8_generator_failure_isolated cGenThrowBoom [] [] "boom" rfl
  refine ⟨?_, h.2.2.1 (by decide)⟩
  rw [h.1, if_neg (by decide)]

/-! ## C2: template compilation (templateEngine.js lines 9-50)

The config pass of `compileTemplate` runs, for each config entry `[key, value]`,
`result.replace(new RegExp('\\\x7b\\\x7b' + key + '\\\x7d\\\x7d', 'g'), String(value ?? ''))`.
The RegExp is built from the UNESCAPED key and the stringified value is
passed as the replacement argument of `String.prototype.replace`, so this is
a global, left-to-right, non-overlapping literal replacement (never
rescanning the replacement text) only when (a) every character of the key is
matched literally by the regular-expression engine — a metacharacter such as
`.` widens the matched language and a lone `(` makes the RegExp constructor
throw — and (b) the value contains no `$`, whose replacement patterns
(`$&`, `$1`, ...) `replace` would expand instead of inserting the value.
The embedding below is the literal replacement; the C2 theorem therefore
restricts config keys to regex-literal characters (letters, digits, hyphen,
underscore; see `regexLiteralKey`) and config values to `$`-free text (see
`dollarFree`), the domain on which the source behaves literally. -/

/-- Global literal replacement: the embedding of JavaScript
`text.replace(regexp-g, rep)` for a pattern the engine matches literally and
a replacement free of `$`-patterns (see the section comment above). -/
def replaceAllLit (pat rep : List Char) : List Char → List Char
  | [] => []
  | c :: t =>
    if prefixB pat (c :: t) then rep ++ replaceAllLit pat rep (t.drop (pat.length - 1))
    else c :: replaceAllLit pat rep t
termination_by l => l.length
decreasing_by
  all_goals simp [List.length_drop]
  all_goals omega

theorem replaceAllLit_nil (pat rep : List Char) : replaceAllLit pat rep [] = [] := by
  simp [replaceAllLit]

theorem replaceAllLit_cons (pat rep : List Char) (c : Char) (t : List Char) :
    replaceAllLit pat rep (c :: t) =
      if prefixB pat (c :: t) then rep ++ replaceAllLit pat rep (t.drop (pat.length - 1))
      else c :: replaceAllLit pat rep t := by
  rw [replaceAllLit]

theorem replaceAllLit_not_prefix_step (pat rep : List Char) (c : Char) (t : List Char)
    (h : prefixB pat (c :: t) = false) :
    replaceAllLit pat rep (c :: t) = c :: replaceAllLit pat rep t := by
  rw [replaceAllLit_cons, h]
  simp

theorem prefixB_head_ne (p : Char) (ps : List Char) (c : Char) (t : List Char)
    (h : (p == c) = false) : prefixB (p :: ps) (c :: t) = false := by
  simp [prefixB, h]

theorem replaceAllLit_match (pat rep t : List Char) (hne : pat ≠ []) :
    replaceAllLit pat rep (pat ++ t) = rep ++ replaceAllLit pat rep t := by
  cases pat with
  | nil => exact absurd rfl hne
  | cons p ps =>
    rw [List.cons_append, replaceAllLit_cons]
    rw [show (p :: (ps ++ t)) = (p :: ps) ++ t from rfl, prefixB_append]
    simp [List.drop_left]

theorem replaceAllLit_append_seg (pat rep s t : List Char)
    (hpat : ∃ ps, pat = '\x7b' :: ps) (hs : ∀ c ∈ s, ¬ c = '\x7b') :
    replaceAllLit pat rep (s ++ t) = s ++ replaceAllLit pat rep t := by
  obtain ⟨ps, rfl⟩ := hpat
  induction s with
  | nil => simp
  | cons c cs ih =>
    have hc : c ≠ '\x7b' := hs c (by simp)
    rw [List.cons_append, replaceAllLit_not_prefix_step _ _ _ _
      (prefixB_head_ne _ _ _ _ (by simp [hc.symm]))]
    rw [ih (fun d hd => hs d (by simp [hd]))]
    rfl

/-- The placeholder pattern `«\x7b\x7b»key«\x7d\x7d»` that the config pass of
`compileTemplate` builds for a field key. -/
def phKey (k : String) : List Char :=
  '\x7b' :: '\x7b' :: (k.toList ++ ['\x7d', '\x7d'])

/-- No opening or closing brace occurs in the character list. -/
def braceFree (l : List Char) : Bool :=
  l.all (fun c => !(c == '\x7b') && !(c == '\x7d'))

theorem braceFree_cons (c : Char) (l : List Char) :
    braceFree (c :: l) = ((!(c == '\x7b') && !(c == '\x7d')) && braceFree l) := by
  simp [braceFree]

theorem braceFree_no_open (l : List Char) (h : braceFree l = true) :
    ∀ c ∈ l, ¬ c = '\x7b' := by
  intro c hc
  have := (List.all_eq_true.mp h) c hc
  intro he
  simp [he] at this

theorem braceFree_no_close (l : List Char) (h : braceFree l = true) :
    ∀ c ∈ l, ¬ c = '\x7d' := by
  intro c hc
  have := (List.all_eq_true.mp h) c hc
  intro he
  simp [he] at this

/-- Two distinct brace-free keys followed by their closing braces can never
match each other: the pattern of one key is not anchored at the placeholder
of another. -/
theorem prefixB_key_clash : ∀ (a b rest : List Char),
    braceFree a = true → braceFree b = true → a ≠ b →
    prefixB (a ++ ['\x7d', '\x7d']) (b ++ '\x7d' :: '\x7d' :: rest) = false := by
  intro a
  induction a with
  | nil =>
    intro b rest _ hb hne
    cases b with
    | nil => exact absurd rfl hne
    | cons x b' =>
      have hx : ¬ x = '\x7d' := braceFree_no_close _ hb x (by simp)
      apply prefixB_head_ne
      simp
      exact fun he => hx he.symm
  | cons y a' ih =>
    intro b rest ha hb hne
    have hy : ¬ y = '\x7d' := braceFree_no_close _ ha y (by simp)
    cases b with
    | nil =>
      apply prefixB_head_ne
      simp [hy]
    | cons x b' =>
      by_cases hyx : y = x
      · subst hyx
        rw [List.cons_append, List.cons_append]
        have : prefixB (y :: (a' ++ ['\x7d', '\x7d'])) (y :: (b' ++ '\x7d' :: '\x7d' :: rest)) =
            prefixB (a' ++ ['\x7d', '\x7d']) (b' ++ '\x7d' :: '\x7d' :: rest) := by
          simp [prefixB]
        rw [this]
        refine ih b' rest ?_ ?_ ?_
        · rw [braceFree_cons] at ha
          simp only [Bool.and_eq_true] at ha
          exact ha.2
        · rw [braceFree_cons] at hb
          simp only [Bool.and_eq_true] at hb
          exact hb.2
        · intro he
          exact hne (by rw [he])
      · apply prefixB_head_ne
        simp [hyx]

/-- The placeholder of key `k` does not match at the start of the placeholder
of a different key `k'`. -/
theorem prefixB_phKey_phKey (k k' : String) (rest : List Char)
    (hk : braceFree k.toList = true) (hk' : braceFree k'.toList = true) (hne : k ≠ k') :
    prefixB (phKey k) ('\x7b' :: '\x7b' :: (k'.toList ++ '\x7d' :: '\x7d' :: rest)) = false := by
  have hlist : k.toList ≠ k'.toList := by
    intro he
    exact hne (String.ext he)
  have h2 := prefixB_key_clash k.toList k'.toList rest hk hk' hlist
  rw [phKey]
  rw [show prefixB ('\x7b' :: '\x7b' :: (k.toList ++ ['\x7d', '\x7d']))
        ('\x7b' :: '\x7b' :: (k'.toList ++ '\x7d' :: '\x7d' :: rest)) =
      prefixB (k.toList ++ ['\x7d', '\x7d']) (k'.toList ++ '\x7d' :: '\x7d' :: rest) from by
    simp [prefixB]]
  exact h2

/-- The placeholder of `k` does not match one position inside another
placeholder (right after its first opening brace). -/
theorem prefixB_phKey_pos1 (k : String) (l rest : List Char) (hl : braceFree l = true) :
    prefixB (phKey k) ('\x7b' :: (l ++ '\x7d' :: rest)) = false := by
  cases l with
  | nil => simp [phKey, prefixB]
  | cons x xs =>
    have hx0 : ¬ x = '\x7b' := braceFree_no_open _ hl x (by simp)
    have hx : ('\x7b' == x) = false := by
      simp only [beq_eq_false_iff_ne, ne_eq]
      exact fun he => hx0 he.symm
    simp [phKey, prefixB, hx]

/-- Skipping a whole placeholder of a different key: the config pass for key
`k` leaves the placeholder of key `k'` untouched. -/
theorem replaceAllLit_skip_ph (k k' : String) (rep rest : List Char)
    (hk : braceFree k.toList = true) (hk' : braceFree k'.toList = true) (hne : k ≠ k') :
    replaceAllLit (phKey k) rep (phKey k' ++ rest) =
      phKey k' ++ replaceAllLit (phKey k) rep rest := by
  have e0 : phKey k' ++ rest =
      '\x7b' :: ('\x7b' :: (k'.toList ++ ('\x7d' :: ('\x7d' :: rest)))) := by
    simp [phKey]
  rw [e0]
  rw [replaceAllLit_not_prefix_step _ _ _ _ (prefixB_phKey_phKey k k' rest hk hk' hne)]
  rw [replaceAllLit_not_prefix_step _ _ _ _
    (prefixB_phKey_pos1 k k'.toList ('\x7d' :: rest) hk')]
  rw [replaceAllLit_append_seg (phKey k) rep k'.toList ('\x7d' :: ('\x7d' :: rest))
    ⟨_, rfl⟩ (braceFree_no_open _ hk')]
  have hstep1 : prefixB (phKey k) ('\x7d' :: ('\x7d' :: rest)) = false := by
    rw [phKey]
    exact prefixB_head_ne _ _ _ _ (by decide)
  have hstep2 : prefixB (phKey k) ('\x7d' :: rest) = false := by
    rw [phKey]
    exact prefixB_head_ne _ _ _ _ (by decide)
  rw [replaceAllLit_not_prefix_step _ _ _ _ hstep1]
  rw [replaceAllLit_not_prefix_step _ _ _ _ hstep2]
  simp [phKey]

/-- A template, decomposed into literal segments and bracketed-key
placeholders. `renderToks` is the concrete template text. -/
inductive TTok
  | seg (s : List Char)
  | hole (k : String)
deriving DecidableEq

def renderToks : List TTok → List Char
  | [] => []
  | TTok.seg s :: rest => s ++ renderToks rest
  | TTok.hole k :: rest => phKey k ++ renderToks rest

/-- Substituting a single config entry `(k, v)` into a template token. -/
def substTokOne (k : String) (v : List Char) : TTok → TTok
  | TTok.seg s => TTok.seg s
  | TTok.hole k' => if k' = k then TTok.seg v else TTok.hole k'

/-- Substituting a whole config map into a template token: a hole whose key is
present in the config becomes that key's stringified value (`null`/`undefined`
stringify to `""`); a hole whose key is absent stays a hole. -/
def substTok (config : List (String × Option String)) : TTok → TTok
  | TTok.seg s => TTok.seg s
  | TTok.hole k =>
    match config.find? (fun kv => kv.1 == k) with
    | some kv => TTok.seg (kv.2.getD "").toList
    | none => TTok.hole k

/-- The `Object.entries(config)` loop of `compileTemplate`
(templateEngine.js lines 13-16). -/
def compileTemplateCfgPass (template : List Char)
    (config : List (String × Option String)) : List Char :=
  config.foldl (fun res kv => replaceAllLit (phKey kv.1) ((kv.2.getD "").toList) res) template

theorem replaceAllLit_renderToks (k : String) (v : List Char) (toks : List TTok)
    (hsegs : ∀ s, TTok.seg s ∈ toks → braceFree s = true)
    (hholes : ∀ k', TTok.hole k' ∈ toks → braceFree k'.toList = true)
    (hk : braceFree k.toList = true) :
    replaceAllLit (phKey k) v (renderToks toks) =
      renderToks (toks.map (substTokOne k v)) := by
  induction toks with
  | nil => simp [renderToks, replaceAllLit_nil]
  | cons t rest ih =>
    have ihr := ih (fun s hs => hsegs s (by simp [hs]))
      (fun k' hk' => hholes k' (by simp [hk']))
    cases t with
    | seg s =>
      have hbf : braceFree s = true := hsegs s (by simp)
      rw [show renderToks (TTok.seg s :: rest) = s ++ renderToks rest from rfl]
      rw [replaceAllLit_append_seg (phKey k) v s (renderToks rest)
        ⟨_, rfl⟩ (braceFree_no_open _ hbf)]
      rw [ihr]
      rfl
    | hole k' =>
      by_cases he : k' = k
      · subst he
        rw [show renderToks (TTok.hole k' :: rest) = phKey k' ++ renderToks rest from rfl]
        rw [replaceAllLit_match (phKey k') v (renderToks rest) (by simp [phKey])]
        rw [ihr]
        simp [substTokOne, renderToks]
      · rw [show renderToks (TTok.hole k' :: rest) = phKey k' ++ renderToks rest from rfl]
        rw [replaceAllLit_skip_ph k k' v (renderToks rest) hk
          (hholes k' (by simp)) (fun hq => he hq.symm)]
        rw [ihr]
        simp [substTokOne, he, renderToks]

theorem substTok_nil (t : TTok) : substTok [] t = t := by
  cases t <;> rfl

theorem substTokOne_then (k : String) (v0 : Option String)
    (config : List (String × Option String)) (t : TTok) :
    substTok config (substTokOne k (v0.getD "").toList t) =
      substTok ((k, v0) :: config) t := by
  cases t with
  | seg s => rfl
  | hole k' =>
    by_cases he : k' = k
    · subst he
      simp [substTokOne, substTok, List.find?]
    · have hbeq : ((k, v0).1 == k') = false := by
        simp only [beq_eq_false_iff_ne, ne_eq]
        exact fun hq => he hq.symm
      simp [substTokOne, substTok, List.find?, if_neg he, hbeq]

/-! The branch pass of `compileTemplate` (templateEngine.js lines 19-47):
per branch handle, the current result is split into lines; a line containing
the `«\x7b\x7b»branches.handleId«\x7d\x7d»` placeholder has its first
occurrence replaced by the branch code re-indented to the line's leading
whitespace, and always regains a trailing newline; other lines keep their
newline except the last. -/

/-- JavaScript `text.split('\n')`. -/
def splitOnNl : List Char → List (List Char)
  | [] => [[]]
  | c :: rest =>
    if c = '\n' then [] :: splitOnNl rest
    else
      match splitOnNl rest with
      | l :: ls => (c :: l) :: ls
      | [] => [[c]]

/-- Replace the first occurrence of a literal pattern, mirroring JavaScript
`line.replace(nonGlobalRegexpOfALiteral, rep)`. -/
def replaceFirstLit (pat rep : List Char) : List Char → List Char
  | [] => []
  | c :: t =>
    if prefixB pat (c :: t) then rep ++ t.drop (pat.length - 1)
    else c :: replaceFirstLit pat rep t

/-- The `«\x7b\x7b»branches.handleId«\x7d\x7d»` placeholder.  The source also
interpolates the handle id unescaped into a RegExp; as with the config pass,
this literal embedding corresponds to regex-literal handle ids. -/
def phBranch (handleId : String) : List Char :=
  "\x7b\x7bbranches.".toList ++ handleId.toList ++ "\x7d\x7d".toList

/-- Re-indent a multi-line branch body: every line after the first acquires
the matching line's leading whitespace (templateEngine.js lines 31-37). -/
def indentedBranchCode (leadingWhitespace branchCode : List Char) : List Char :=
  List.intercalate ['\n']
    ((splitOnNl branchCode).mapIdx (fun idx line =>
      if idx = 0 then line else leadingWhitespace ++ line))

/-- The per-line loop of the branch pass (templateEngine.js lines 24-43). -/
def branchLinesGo (ph branchCode : List Char) : List (List Char) → List Char
  | [] => []
  | [line] =>
    if includesSub line ph then
      replaceFirstLit ph
        (indentedBranchCode (line.takeWhile Char.isWhitespace) branchCode) line ++ ['\n']
    else line
  | line :: next :: rest =>
    (if includesSub line ph then
        replaceFirstLit ph
          (indentedBranchCode (line.takeWhile Char.isWhitespace) branchCode) line ++ ['\n']
      else line ++ ['\n']) ++ branchLinesGo ph branchCode (next :: rest)

/-- `compileTemplate` from templateEngine.js lines 9-50: the config pass
followed by the branch pass.  (In the CLI, generators are invoked with an
empty branch map, so the branch loop iterates zero times there.) -/
def compileTemplate (template : List Char) (config : List (String × Option String))
    (branches : List (String × String)) : List Char :=
  let afterCfg := compileTemplateCfgPass template config
  branches.foldl
    (fun res hb => branchLinesGo (phBranch hb.1) hb.2.toList (splitOnNl res)) afterCfg

theorem compileTemplateCfgPass_renderToks :
    ∀ (config : List (String × Option String)) (toks : List TTok),
    (∀ s, TTok.seg s ∈ toks → braceFree s = true) →
    (∀ k', TTok.hole k' ∈ toks → braceFree k'.toList = true) →
    (∀ kv ∈ config, braceFree kv.1.toList = true ∧
      braceFree (kv.2.getD "").toList = true) →
    compileTemplateCfgPass (renderToks toks) config =
      renderToks (toks.map (substTok config)) := by
  intro config
  induction config with
  | nil =>
    intro toks _ _ _
    simp only [compileTemplateCfgPass, List.foldl_nil]
    have : toks.map (substTok []) = toks := by
      rw [show substTok [] = fun t => t from funext substTok_nil]
      exact List.map_id _
    rw [this]
  | cons kv config' ih =>
    intro toks hsegs hholes hcfg
    obtain ⟨k0, v0⟩ := kv
    have hk0 : braceFree k0.toList = true := (hcfg (k0, v0) (by simp)).1
    have hv0 : braceFree ((v0.getD "").toList) = true := (hcfg (k0, v0) (by simp)).2
    simp only [compileTemplateCfgPass, List.foldl_cons]
    rw [show replaceAllLit (phKey (k0, v0).1) (((k0, v0).2.getD "").toList) (renderToks toks) =
        renderToks (toks.map (substTokOne k0 ((v0.getD "").toList))) from
      replaceAllLit_renderToks k0 _ toks hsegs hholes hk0]
    have hstep := ih (toks.map (substTokOne k0 ((v0.getD "").toList)))
      (by
        intro s hs
        rw [List.mem_map] at hs
        obtain ⟨t, ht, hts⟩ := hs
        cases t with
        | seg s2 =>
          have he2 : s2 = s := by simpa [substTokOne] using hts
          subst he2
          exact hsegs s2 ht
        | hole k2 =>
          by_cases he : k2 = k0
          · have he2 : (v0.getD "").toList = s := by simpa [substTokOne, he] using hts
            subst he2
            exact hv0
          · exfalso
            simp [substTokOne, he] at hts)
      (by
        intro k' hk'
        rw [List.mem_map] at hk'
        obtain ⟨t, ht, hts⟩ := hk'
        cases t with
        | seg s2 => simp [substTokOne] at hts
        | hole k2 =>
          by_cases he : k2 = k0
          · simp [substTokOne, he] at hts
          · have he2 : k2 = k' := by simpa [substTokOne, he] using hts
            subst he2
            exact hholes k2 ht)
      (fun kv h => hcfg kv (by simp [h]))
    rw [show compileTemplateCfgPass (renderToks (toks.map (substTokOne k0 ((v0.getD "").toList))))
        config' = config'.foldl
          (fun res kv => replaceAllLit (phKey kv.1) ((kv.2.getD "").toList) res)
          (renderToks (toks.map (substTokOne k0 ((v0.getD "").toList)))) from rfl] at hstep
    rw [hstep, List.map_map]
    exact congrArg renderToks
      (List.map_congr_left (fun t _ => substTokOne_then k0 v0 config' t))

/-- All literal segments and all hole keys of a tokenized template are
brace-free (field keys never contain braces). -/
def toksWellFormed (toks : List TTok) : Bool :=
  toks.all (fun t =>
    match t with
    | TTok.seg s => braceFree s
    | TTok.hole k => braceFree k.toList)

/-- Every character of the key is a regex-literal character: a letter, a
digit, a hyphen or an underscore.  For such keys the RegExp that the source
builds from the unescaped key matches exactly the literal text
`«\x7b\x7b»key«\x7d\x7d»` and its construction cannot throw; a key with a
metacharacter (`.`, `(`, `*`, ...) falls outside this embedding. -/
def regexLiteralKey (k : String) : Bool :=
  k.toList.all (fun c => c.isAlphanum || c == '-' || c == '_')

/-- The text contains no `$`: `String.prototype.replace` inserts such a
replacement string verbatim instead of expanding `$`-patterns
(`$&`, `$1`, ...). -/
def dollarFree (s : String) : Bool :=
  s.toList.all (fun c => !(c == '$'))

/-- The config maps on which the literal-replacement embedding agrees with
the source's regex-based replacement: every key is brace-free and
regex-literal, every stringified value is brace-free and `$`-free. -/
def configWellFormed (config : List (String × Option String)) : Bool :=
  config.all (fun kv => (braceFree kv.1.toList && regexLiteralKey kv.1) &&
    (braceFree (kv.2.getD "").toList && dollarFree (kv.2.getD "")))

/-- C2 (amended): for a config map whose field keys are regex-literal
(letters, digits, hyphens, underscores) and whose stringified values contain
no `$` — the domain on which the source's
`new RegExp('\\\x7b\\\x7b' + key + '\\\x7d\\\x7d', 'g')` replacement is a
literal replacement — compiling a template whose placeholders are the holes
of `toks` replaces every occurrence of a bracketed key that is PRESENT in
the config by that key's stringified value (`null`/`undefined` stringify to
the empty string), while every occurrence of a key ABSENT from the config is
left in the output verbatim as `«\x7b\x7b»key«\x7d\x7d»` — not replaced by
the empty string. -/
theorem c2_compileTemplate_subst (toks : List TTok) (config : List (String × Option String))
    (htoks : toksWellFormed toks = true) (hcfg : configWellFormed config = true) :
    compileTemplate (renderToks toks) config [] =
        renderToks (toks.map (substTok config)) ∧
      (∀ k, (∀ v, (k, v) ∉ config) → substTok config (TTok.hole k) = TTok.hole k) ∧
      (∀ k v, config.find? (fun kv => kv.1 == k) = some (k, v) →
        substTok config (TTok.hole k) = TTok.seg ((v.getD "").toList)) := by
  refine ⟨?_, ?_, ?_⟩
  · show compileTemplateCfgPass (renderToks toks) config = _
    apply compileTemplateCfgPass_renderToks config toks
    · intro s hs
      have := List.all_eq_true.mp htoks _ hs
      exact this
    · intro k' hk'
      have := List.all_eq_true.mp htoks _ hk'
      exact this
    · intro kv hkv
      have := List.all_eq_true.mp hcfg _ hkv
      simp only [Bool.and_eq_true] at this
      exact ⟨this.1.1, this.2.1⟩
  · intro k hk
    rw [substTok]
    have : config.find? (fun kv => kv.1 == k) = none := by
      rw [List.find?_eq_none]
      intro kv hkv hbeq
      apply hk kv.2
      have : kv.1 = k := by simpa using hbeq
      rw [← this]
      exact hkv
    rw [this]
  · intro k v hfind
    rw [substTok, hfind]

/-- The spec's own worked example: the template `Write-Host "«..»message«..»"`. -/
def c2Template : List Char := "Write-Host \"\x7b\x7bmessage\x7d\x7d\"".toList

/-- C2 counterexample: with `message` absent from the config, `compileTemplate`
leaves the placeholder verbatim; it does not substitute the empty string
(which would give `Write-Host ""`). -/
theorem c2_compileTemplate_counterexample :
    compileTemplate c2Template [] [] = c2Template ∧
      c2Template ≠ "Write-Host \"\"".toList := by
  exact ⟨rfl, by decide⟩

def c2WitnessToks : List TTok :=
  [TTok.seg "echo ".toList, TTok.hole "msg", TTok.seg " done".toList, TTok.hole "absent"]

def c2WitnessConfig : List (String × Option String) := [("msg", some "hi")]

/-- Closed witness for C2: a present key is substituted, an absent key is left
verbatim. -/
theorem c2_compileTemplate_subst_witness :
    compileTemplate (renderToks c2WitnessToks) c2WitnessConfig [] =
        renderToks (c2WitnessToks.map (substTok c2WitnessConfig)) ∧
      renderToks (c2WitnessToks.map (substTok c2WitnessConfig)) =
        "echo hi done\x7b\x7babsent\x7d\x7d".toList := by
  refine ⟨(c2_compileTemplate_subst c2WitnessToks c2WitnessConfig
    (by decide) (by decide)).1, by decide⟩

/-! ## The log store text format (logger.ts)

Records are separated by the literal `---\n` (`LOG_SEPARATOR`, logger.ts line
9).  Every read-side function normalizes CRLF to LF, splits the store text on
the separator, and keeps the chunks with non-blank trim
(`.split(LOG_SEPARATOR).filter(e => e.trim())`). -/

/-- The `LOG_SEPARATOR` literal `---\n`. -/
def sepChars : List Char := ['-', '-', '-', '\n']

/-- `content.replace(/\r\n/g, '\n')`: CRLF→LF normalization. -/
def crlfToLf : List Char → List Char
  | [] => []
  | [c] => [c]
  | c1 :: c2 :: rest =>
    if c1 = '\r' ∧ c2 = '\n' then '\n' :: crlfToLf rest
    else c1 :: crlfToLf (c2 :: rest)

/-- The scanning loop of JavaScript `content.split('---\n')`: leftmost,
non-overlapping separator matches; `acc` holds the text accumulated since the
last separator. -/
def splitSepGo : List Char → List Char → List (List Char)
  | acc, [] => [acc]
  | acc, '-' :: '-' :: '-' :: '\n' :: rest => acc :: splitSepGo [] rest
  | acc, c :: rest => splitSepGo (acc ++ [c]) rest

/-- `content.split('---\n')`. -/
def splitSep (content : List Char) : List (List Char) :=
  splitSepGo [] content

/-- JavaScript truthiness of `e.trim()`: the chunk has a non-whitespace
character. -/
def trimNonblank (l : List Char) : Bool :=
  l.any (fun c => !c.isWhitespace)

/-- The well-formed record chunks of the store content, as every read-side
function of logger.ts computes them. -/
def logEntriesOf (content : List Char) : List (List Char) :=
  (splitSep (crlfToLf content)).filter trimNonblank

/-- A store text that is the concatenation of separator-terminated records. -/
def storeOf : List (List Char) → List Char
  | [] => []
  | e :: es => e ++ (sepChars ++ storeOf es)

/-- Every record of the list is free of the separator literal and has
non-blank trim (what the writers of logger.ts produce). -/
def wfStoreB (es : List (List Char)) : Bool :=
  es.all (fun e => !(includesSub e sepChars) && trimNonblank e)

theorem splitSepGo_nil (acc : List Char) : splitSepGo acc [] = [acc] := rfl

theorem splitSepGo_sep (acc rest : List Char) :
    splitSepGo acc ('-' :: '-' :: '-' :: '\n' :: rest) = acc :: splitSepGo [] rest := rfl

theorem splitSepGo_no_match (acc : List Char) (c : Char) (t : List Char)
    (h : prefixB sepChars (c :: t) = false) :
    splitSepGo acc (c :: t) = splitSepGo (acc ++ [c]) t := by
  have hex : ∀ (r : List Char), c = '-' → t = '-' :: '-' :: '\n' :: r → False := by
    intro r hc ht
    subst hc
    subst ht
    rw [show ('-' :: '-' :: '-' :: '\n' :: r : List Char) = sepChars ++ r from rfl,
      prefixB_append] at h
    cases h
  rw [splitSepGo.eq_def]
  split
  · next heq => exact absurd heq (List.cons_ne_nil _ _)
  · next heq =>
    exfalso
    injection heq with hc ht
    exact hex _ hc ht
  · next heq =>
    injection heq with hc ht
    rw [hc, ht]

/-- The separator never matches starting strictly inside a separator-free
chunk, not even overlapping into the separator that follows the chunk: the
proper prefixes of `---\n` are all dashes, so a cross-boundary match would
need `\n` where the separator has a dash. -/
theorem prefixB_sep_in_chunk (c : Char) (e' rest : List Char)
    (h : includesSub (c :: e') sepChars = false) :
    prefixB sepChars ((c :: e') ++ (sepChars ++ rest)) = false := by
  match e' with
  | [] =>
    have h1 : (('\n' : Char) == '-') = false := by decide
    simp [sepChars, prefixB, h1]
  | [b] =>
    have h1 : (('\n' : Char) == '-') = false := by decide
    simp [sepChars, prefixB, h1]
  | [b1, b2] =>
    have h1 : (('\n' : Char) == '-') = false := by decide
    simp [sepChars, prefixB, h1]
  | b1 :: b2 :: b3 :: t =>
    cases hp : prefixB sepChars ((c :: b1 :: b2 :: b3 :: t) ++ (sepChars ++ rest)) with
    | false => rfl
    | true =>
      exfalso
      simp only [List.cons_append, sepChars, prefixB, Bool.and_eq_true, beq_iff_eq] at hp
      obtain ⟨hc, hb1, hb2, hb3, _⟩ := hp
      rw [← hc, ← hb1, ← hb2, ← hb3] at h
      rw [show includesSub ('-' :: '-' :: '-' :: '\n' :: t) sepChars =
          (prefixB sepChars ('-' :: '-' :: '-' :: '\n' :: t) ||
            includesSub ('-' :: '-' :: '\n' :: t) sepChars) from rfl] at h
      rw [show ('-' :: '-' :: '-' :: '\n' :: t) = sepChars ++ t from rfl] at h
      rw [prefixB_append] at h
      simp at h

/-- Scanning a separator-free chunk followed by a separator emits exactly that
chunk. -/
theorem splitSepGo_chunk : ∀ (e acc rest : List Char),
    includesSub e sepChars = false →
    splitSepGo acc (e ++ (sepChars ++ rest)) = (acc ++ e) :: splitSepGo [] rest := by
  intro e
  induction e with
  | nil =>
    intro acc rest _
    simp only [List.nil_append]
    rw [show sepChars ++ rest = '-' :: '-' :: '-' :: '\n' :: rest from rfl]
    rw [splitSepGo_sep]
    simp
  | cons c e' ih =>
    intro acc rest h
    have htail : includesSub e' sepChars = false := by
      rw [show includesSub (c :: e') sepChars =
        (prefixB sepChars (c :: e') || includesSub e' sepChars) from rfl] at h
      simp only [Bool.or_eq_false_iff] at h
      exact h.2
    have hstep := prefixB_sep_in_chunk c e' rest h
    rw [show (c :: e') ++ (sepChars ++ rest) = c :: (e' ++ (sepChars ++ rest)) from rfl]
    rw [splitSepGo_no_match acc c (e' ++ (sepChars ++ rest)) hstep]
    rw [ih (acc ++ [c]) rest htail]
    simp

theorem storeOf_append : ∀ (a b : List (List Char)),
    storeOf (a ++ b) = storeOf a ++ storeOf b := by
  intro a b
  induction a with
  | nil => simp [storeOf]
  | cons e es ih => simp [storeOf, ih]

theorem splitSep_storeOf : ∀ (es : List (List Char)) (rest : List Char),
    (∀ e ∈ es, includesSub e sepChars = false) →
    splitSepGo [] (storeOf es ++ rest) = es ++ splitSepGo [] rest := by
  intro es
  induction es with
  | nil => intro rest _; simp [storeOf]
  | cons e es' ih =>
    intro rest hwf
    rw [show storeOf (e :: es') ++ rest = e ++ (sepChars ++ (storeOf es' ++ rest)) from by
      simp [storeOf]]
    rw [splitSepGo_chunk e [] (storeOf es' ++ rest) (hwf e (by simp))]
    rw [ih rest (fun x hx => hwf x (by simp [hx]))]
    simp

/-- On a well-formed store text, the read-side chunking recovers exactly the
written records. -/
theorem logEntriesOf_store (content : List Char) (es : List (List Char))
    (hn : crlfToLf content = storeOf es) (hwf : wfStoreB es = true) :
    logEntriesOf content = es := by
  have hsep : ∀ e ∈ es, includesSub e sepChars = false := by
    intro e he
    have := List.all_eq_true.mp hwf e he
    simp only [Bool.and_eq_true, Bool.not_eq_true'] at this
    exact this.1
  have htrim : ∀ e ∈ es, trimNonblank e = true := by
    intro e he
    have := List.all_eq_true.mp hwf e he
    simp only [Bool.and_eq_true] at this
    exact this.2
  rw [logEntriesOf, hn, splitSep]
  rw [show storeOf es = storeOf es ++ [] from (List.append_nil _).symm]
  rw [splitSep_storeOf es [] hsep, splitSepGo_nil]
  rw [List.filter_append]
  rw [List.filter_eq_self.mpr htrim]
  simp [trimNonblank]

/-! ## C7: `Logger.readLogs` (logger.ts lines 57-80) -/

/-- `Logger.readLogs`: normalize line endings; a falsy count (`0` or absent)
returns the whole normalized store; otherwise split into well-formed entries,
take the last `count` (`entries.slice(-count)`), and re-join with the
separator (restoring the trailing separator when anything was returned). -/
def readLogs (content : List Char) (count : Option Nat) : List Char :=
  let normalized := crlfToLf content
  match count with
  | none => normalized
  | some 0 => normalized
  | some n =>
    let entries := (splitSep normalized).filter trimNonblank
    let lastEntries := entries.drop (entries.length - n)
    List.intercalate sepChars lastEntries ++
      (if 0 < lastEntries.length then sepChars else [])

/-- C7: on a well-formed store, `readLogs` with `n = 0` or `n` absent returns
the whole CRLF-normalized store, and with `n > 0` returns exactly the most
recent `min n total` well-formed records — a suffix of the record sequence,
in write order — re-joined in the store format. -/
theorem c7_readLogs_spec (content : List Char) (es : List (List Char))
    (hn : crlfToLf content = storeOf es) (hwf : wfStoreB es = true) :
    readLogs content none = crlfToLf content ∧
      readLogs content (some 0) = crlfToLf content ∧
      ∀ n : Nat, 0 < n →
        readLogs content (some n) =
            List.intercalate sepChars (es.drop (es.length - n)) ++
              (if 0 < (es.drop (es.length - n)).length then sepChars else []) ∧
          (es.drop (es.length - n)).length = min n es.length ∧
          es.drop (es.length - n) <:+ es := by
  have hentries : (splitSep (crlfToLf content)).filter trimNonblank = es :=
    logEntriesOf_store content es hn hwf
  refine ⟨rfl, rfl, ?_⟩
  intro n hpos
  obtain ⟨m, rfl⟩ : ∃ m, n = m + 1 := ⟨n - 1, by omega⟩
  refine ⟨?_, ?_, List.drop_suffix _ _⟩
  · show (let entries := (splitSep (crlfToLf content)).filter trimNonblank
      let lastEntries := entries.drop (entries.length - (m + 1))
      List.intercalate sepChars lastEntries ++
        (if 0 < lastEntries.length then sepChars else [])) = _
    rw [hentries]
  · rw [List.length_drop]
    omega

def c7WitnessStore : List (List Char) := ["record A".toList, "record B".toList]

/-- Closed witness for C7: reading the last 1 record of a 2-record store
returns exactly the most recent record in store format. -/
theorem c7_readLogs_spec_witness :
    readLogs (storeOf c7WitnessStore) (some 1) = "record B---\n".toList ∧
      readLogs (storeOf c7WitnessStore) none = crlfToLf (storeOf c7WitnessStore) := by
  have h := c7_readLogs_spec (storeOf c7WitnessStore) c7WitnessStore (by decide) (by decide)
  refine ⟨?_, h.1⟩
  rw [(h.2.2 1 (by decide)).1]
  decide

/-! ## C9: `Logger.writeLog` and `Logger.getLogCount` (logger.ts 31-55, 116-130) -/

/-- `Logger.getLogCount`: the number of well-formed record chunks. -/
def getLogCount (content : List Char) : Nat :=
  (logEntriesOf content).length

/-- A `LogEntry` as `Logger.writeLog` serializes it.  `timestamp` is the
already-formatted `toLocaleString()` text (locale formatting is not
modelled). -/
structure LogEntry where
  id : Nat
  timestamp : String
  commandName : String
  commandExecuted : String
  sessionId : String
  user : String
  hostname : String
  workingDir : String
  shell : String
  exitCode : Int
  stdout : String
  stderr : String

def natChars (n : Nat) : List Char := (toString n).toList

def intChars (i : Int) : List Char := (toString i).toList

/-- The record text of `Logger.writeLog` before its trailing separator: the
header line, session line, shell line, exit-code line, then the output part
(`Output:\n<stdout>` or `Output: (no output)`), then for non-empty stderr an
`Errors:` part (an empty stderr is dropped by `.filter(Boolean)`).  The
`.join('\n')` of the source is spelled out as explicit newlines. -/
def writeLogBody (e : LogEntry) : List Char :=
  '[' :: ("Log-".toList ++ natChars e.id ++ "] [".toList ++ e.timestamp.toList ++
    "] ".toList ++ e.commandName.toList ++ " (".toList ++ e.commandExecuted.toList ++
    ")\nSession: ".toList ++ e.sessionId.toList ++ " | ".toList ++ e.user.toList ++
    "@".toList ++ e.hostname.toList ++ " | ".toList ++ e.workingDir.toList ++
    "\nShell: ".toList ++ e.shell.toList ++ "\nExit Code: ".toList ++ intChars e.exitCode ++
    "\n".toList ++
    (if e.stdout = "" then "Output: (no output)".toList
      else "Output:\n".toList ++ e.stdout.toList) ++
    (if e.stderr = "" then [] else "\nErrors:\n".toList ++ e.stderr.toList))

/-- The full appended text of `Logger.writeLog`: the joined body, the
newline from the join, and the `---\n` separator. -/
def writeLogText (e : LogEntry) : List Char :=
  writeLogBody e ++ ('\n' :: sepChars)

/-- `Logger.writeLog`: append the serialized record to the store content. -/
def writeLog (content : List Char) (e : LogEntry) : List Char :=
  content ++ writeLogText e

theorem crlfToLf_append : ∀ (a b : List Char),
    (∀ h, b.head? = some h → h ≠ '\n') →
    crlfToLf (a ++ b) = crlfToLf a ++ crlfToLf b
  | [], b, _ => by simp [crlfToLf]
  | [c], b, hb => by
    cases b with
    | nil => simp [crlfToLf]
    | cons d bs =>
      have hd : d ≠ '\n' := hb d rfl
      rw [show [c] ++ d :: bs = c :: d :: bs from rfl]
      rw [show crlfToLf (c :: d :: bs) =
        if c = '\r' ∧ d = '\n' then '\n' :: crlfToLf bs
        else c :: crlfToLf (d :: bs) from by rw [crlfToLf]]
      rw [if_neg (fun hcd => hd hcd.2)]
      rw [show crlfToLf [c] = [c] from rfl]
      rfl
  | c1 :: c2 :: rest, b, hb => by
    rw [show (c1 :: c2 :: rest) ++ b = c1 :: c2 :: (rest ++ b) from rfl]
    rw [show crlfToLf (c1 :: c2 :: (rest ++ b)) =
      if c1 = '\r' ∧ c2 = '\n' then '\n' :: crlfToLf (rest ++ b)
      else c1 :: crlfToLf (c2 :: (rest ++ b)) from by rw [crlfToLf]]
    rw [show crlfToLf (c1 :: c2 :: rest) =
      if c1 = '\r' ∧ c2 = '\n' then '\n' :: crlfToLf rest
      else c1 :: crlfToLf (c2 :: rest) from by rw [crlfToLf]]
    by_cases h : c1 = '\r' ∧ c2 = '\n'
    · rw [if_pos h, if_pos h, crlfToLf_append rest b hb]
      rfl
    · rw [if_neg h, if_neg h]
      rw [show c2 :: (rest ++ b) = (c2 :: rest) ++ b from rfl]
      rw [crlfToLf_append (c2 :: rest) b hb]
      rfl

theorem trimNonblank_cons (c : Char) (l : List Char) :
    trimNonblank (c :: l) = (!c.isWhitespace || trimNonblank l) := by
  simp [trimNonblank]

/-- C9 (amended): on a store content whose normalization is a well-formed
sequence of separator-terminated records, appending via `writeLog` a record
whose serialized body (with the following join newline) does not contain the
separator literal, and which needs no CRLF normalization, leaves the old
content as a prefix of the new content and increases `getLogCount` by exactly
one. -/
theorem c9_writeLog_spec (content : List Char) (es : List (List Char)) (e : LogEntry)
    (hn : crlfToLf content = storeOf es) (hwf : wfStoreB es = true)
    (hcr : crlfToLf (writeLogText e) = writeLogText e)
    (hbody : includesSub (writeLogBody e ++ ['\n']) sepChars = false) :
    content <+: writeLog content e ∧
      getLogCount (writeLog content e) = getLogCount content + 1 := by
  constructor
  · exact List.prefix_append _ _
  · have hhead : ∀ h, (writeLogText e).head? = some h → h ≠ '\n' := by
      intro h hh
      rw [show writeLogText e = '[' :: (("Log-".toList ++ natChars e.id ++ "] [".toList ++
          e.timestamp.toList ++ "] ".toList ++ e.commandName.toList ++ " (".toList ++
          e.commandExecuted.toList ++ ")\nSession: ".toList ++ e.sessionId.toList ++
          " | ".toList ++ e.user.toList ++ "@".toList ++ e.hostname.toList ++
          " | ".toList ++ e.workingDir.toList ++ "\nShell: ".toList ++ e.shell.toList ++
          "\nExit Code: ".toList ++ intChars e.exitCode ++ "\n".toList ++
          (if e.stdout = "" then "Output: (no output)".toList
            else "Output:\n".toList ++ e.stdout.toList) ++
          (if e.stderr = "" then [] else "\nErrors:\n".toList ++ e.stderr.toList)) ++
          ('\n' :: sepChars)) from rfl] at hh
      rw [List.head?_cons] at hh
      cases hh
      decide
    have hchunk : writeLogText e = (writeLogBody e ++ ['\n']) ++ sepChars := by
      rw [writeLogText, List.append_assoc]
      rfl
    have hnew : crlfToLf (writeLog content e) =
        storeOf (es ++ [writeLogBody e ++ ['\n']]) := by
      rw [writeLog, crlfToLf_append content (writeLogText e) hhead, hn, hcr]
      rw [storeOf_append]
      rw [show storeOf [writeLogBody e ++ ['\n']] =
        (writeLogBody e ++ ['\n']) ++ (sepChars ++ []) from rfl]
      rw [List.append_nil, hchunk]
    have htrim : trimNonblank (writeLogBody e ++ ['\n']) = true := by
      rw [show writeLogBody e ++ ['\n'] = '[' :: (("Log-".toList ++ natChars e.id ++
          "] [".toList ++ e.timestamp.toList ++ "] ".toList ++ e.commandName.toList ++
          " (".toList ++ e.commandExecuted.toList ++ ")\nSession: ".toList ++
          e.sessionId.toList ++ " | ".toList ++ e.user.toList ++ "@".toList ++
          e.hostname.toList ++ " | ".toList ++ e.workingDir.toList ++ "\nShell: ".toList ++
          e.shell.toList ++ "\nExit Code: ".toList ++ intChars e.exitCode ++ "\n".toList ++
          (if e.stdout = "" then "Output: (no output)".toList
            else "Output:\n".toList ++ e.stdout.toList) ++
          (if e.stderr = "" then [] else "\nErrors:\n".toList ++ e.stderr.toList)) ++
          ['\n']) from by rw [writeLogBody]; simp] at *
      rw [trimNonblank_cons]
      rw [show (!Char.isWhitespace '[') = true from by decide]
      simp
    have hwf2 : wfStoreB (es ++ [writeLogBody e ++ ['\n']]) = true := by
      rw [wfStoreB, List.all_append]
      rw [show (es.all fun x => !includesSub x sepChars && trimNonblank x) = true from hwf]
      simp only [List.all_cons, List.all_nil, Bool.and_true, Bool.true_and]
      rw [hbody, htrim]
      rfl
    rw [getLogCount, logEntriesOf_store (writeLog content e) _ hnew hwf2]
    rw [getLogCount, logEntriesOf_store content es hn hwf]
    simp

/-- A record whose fields are free of the separator literal `---\n`, but whose
stdout ends in three dashes, so the join newline completes a separator inside
the serialized record. -/
def c9CxEntry : LogEntry :=
  { id := 7, timestamp := "t", commandName := "c", commandExecuted := "c",
    sessionId := "1", user := "u", hostname := "h", workingDir := "d",
    shell := "sh", exitCode := 0, stdout := "x---", stderr := "y" }

/-- C9 counterexample: no text field of `c9CxEntry` contains the separator
line `---\n`, yet appending it to the empty store raises `getLogCount` from
`0` to `2`, not `1` — the stdout tail `x---` plus the join newline forms a
separator that splits the record in two. -/
theorem c9_writeLog_counterexample :
    (includesSub c9CxEntry.commandName.toList sepChars = false ∧
      includesSub c9CxEntry.commandExecuted.toList sepChars = false ∧
      includesSub c9CxEntry.sessionId.toList sepChars = false ∧
      includesSub c9CxEntry.user.toList sepChars = false ∧
      includesSub c9CxEntry.hostname.toList sepChars = false ∧
      includesSub c9CxEntry.workingDir.toList sepChars = false ∧
      includesSub c9CxEntry.shell.toList sepChars = false ∧
      includesSub c9CxEntry.stdout.toList sepChars = false ∧
      includesSub c9CxEntry.stderr.toList sepChars = false ∧
      includesSub c9CxEntry.timestamp.toList sepChars = false) ∧
      getLogCount ([] : List Char) = 0 ∧
      getLogCount (writeLog [] c9CxEntry) = 2 := by
  refine ⟨by decide, by decide, by decide⟩

def c9WitnessStore : List (List Char) := ["old record".toList]

def c9WitnessEntry : LogEntry :=
  { id := 3, timestamp := "t", commandName := "build", commandExecuted := "make",
    sessionId := "9", user := "u", hostname := "h", workingDir := "/w",
    shell := "bash", exitCode := 0, stdout := "ok", stderr := "" }

/-- Closed witness for C9 at a one-record store and a benign record. -/
theorem c9_writeLog_spec_witness :
    storeOf c9WitnessStore <+: writeLog (storeOf c9WitnessStore) c9WitnessEntry ∧
      getLogCount (writeLog (storeOf c9WitnessStore) c9WitnessEntry) =
        getLogCount (storeOf c9WitnessStore) + 1 :=
  c9_writeLog_spec (storeOf c9WitnessStore) c9WitnessStore c9WitnessEntry
    (by decide) (by decide) (by decide) (by decide)

/-! ## C10: `Logger.searchLogs` (logger.ts lines 82-103) -/

/-- The matching entries of `searchLogs`: both the record text and the query
are lowercased before the substring test. -/
def searchMatches (content : List Char) (query : List Char) : List (List Char) :=
  (logEntriesOf content).filter
    (fun entry => includesSub (entry.map Char.toLower) (query.map Char.toLower))

/-- `Logger.searchLogs`: the matching entries re-joined in store format. -/
def searchLogs (content : List Char) (query : List Char) : List Char :=
  List.intercalate sepChars (searchMatches content query) ++
    (if 0 < (searchMatches content query).length then sepChars else [])

/-- C10: on a well-formed store, `searchLogs` returns exactly the records
whose full text contains the query ignoring letter case (both sides
lowercased before the substring test), re-joined in store format; and the
result is unchanged under any case-variant of the query. -/
theorem c10_searchLogs_spec (content : List Char) (q q' : List Char)
    (es : List (List Char))
    (hn : crlfToLf content = storeOf es) (hwf : wfStoreB es = true) :
    searchLogs content q =
        List.intercalate sepChars
            (es.filter (fun entry =>
              includesSub (entry.map Char.toLower) (q.map Char.toLower))) ++
          (if 0 < (es.filter (fun entry =>
              includesSub (entry.map Char.toLower) (q.map Char.toLower))).length
            then sepChars else []) ∧
      (∀ entry, entry ∈ searchMatches content q ↔
        (entry ∈ es ∧
          includesSub (entry.map Char.toLower) (q.map Char.toLower) = true)) ∧
      (q.map Char.toLower = q'.map Char.toLower →
        searchLogs content q = searchLogs content q') := by
  have hentries : logEntriesOf content = es := logEntriesOf_store content es hn hwf
  refine ⟨?_, ?_, ?_⟩
  · rw [searchLogs, searchMatches, hentries]
  · intro entry
    rw [searchMatches, hentries, List.mem_filter]
  · intro hq
    rw [searchLogs, searchLogs, searchMatches, searchMatches, hq]

def c10WitnessStore : List (List Char) := ["Echo Hello".toList, "other".toList]

/-- Closed witness for C10: searching a concrete store with two case-variants
of the same query gives the same result, which is exactly the matching
record. -/
theorem c10_searchLogs_spec_witness :
    searchLogs (storeOf c10WitnessStore) "HELLO".toList =
        searchLogs (storeOf c10WitnessStore) "hello".toList ∧
      searchLogs (storeOf c10WitnessStore) "HELLO".toList = "Echo Hello---\n".toList := by
  have h := c10_searchLogs_spec (storeOf c10WitnessStore) "HELLO".toList "hello".toList
    c10WitnessStore (by decide) (by decide)
  refine ⟨h.2.2 (by decide), ?_⟩
  rw [h.1]
  decide

/-! ## C1: `Logger.getEventLogs` (logger.ts lines 360-389) -/

/-- The `[Log-<id>]` text the start lookup matches with `String.includes`. -/
def logIdMarker (id : Nat) : List Char :=
  "[Log-".toList ++ natChars id ++ "]".toList

/-- The `EVENT-START` text of the start lookup. -/
def eventStartMarker : List Char := "EVENT-START".toList

/-- The `Parent-Event: <id>` text the child lookup matches with
`String.includes`. -/
def parentMarker (id : Nat) : List Char :=
  "Parent-Event: ".toList ++ natChars id

/-- `Logger.getEventLogs` on the split record chunks: find the first entry
containing both `[Log-<id>]` and `EVENT-START`; if none, return `[]`;
otherwise return it followed by every entry containing
`Parent-Event: <id>`. -/
def getEventLogsEntries (entries : List (List Char)) (parentEventId : Nat) :
    List (List Char) :=
  match entries.find? (fun entry =>
      includesSub entry (logIdMarker parentEventId) &&
        includesSub entry eventStartMarker) with
  | none => []
  | some startEntry =>
    startEntry :: entries.filter (fun entry =>
      includesSub entry (parentMarker parentEventId))

/-- `Logger.getEventLogs` on the store content. -/
def getEventLogs (content : List Char) (parentEventId : Nat) : List (List Char) :=
  getEventLogsEntries (logEntriesOf content) parentEventId

theorem find?_eq_of_first {α : Type} (p : α → Bool) :
    ∀ (l : List α) (x : α), x ∈ l → p x = true →
    (∀ e ∈ l, p e = true → e = x) → l.find? p = some x := by
  intro l
  induction l with
  | nil => intro x hx; cases hx
  | cons h t ih =>
    intro x hx hpx huniq
    cases hph : p h with
    | true =>
      rw [List.find?_cons_of_pos _ hph]
      rw [huniq h (by simp) hph]
    | false =>
      rw [List.find?_cons_of_neg _ (by simp [hph])]
      have hxt : x ∈ t := by
        cases List.mem_cons.mp hx with
        | inl he =>
          exfalso
          rw [he] at hpx
          rw [hpx] at hph
          cases hph
        | inr ht => exact ht
      exact ih x hxt hpx (fun e he hpe => huniq e (by simp [he]) hpe)

theorem filter_eq_of_sublist {α : Type} [DecidableEq α] (p : α → Bool) :
    ∀ (l kids : List α), kids.Sublist l → l.Nodup →
    (∀ e ∈ l, (p e = true ↔ e ∈ kids)) → l.filter p = kids := by
  intro l
  induction l with
  | nil =>
    intro kids hsub _ _
    rw [List.sublist_nil.mp hsub]
    rfl
  | cons h t ih =>
    intro kids hsub hnd hiff
    cases hph : p h with
    | true =>
      have hhk : h ∈ kids := (hiff h (by simp)).mp hph
      cases hsub with
      | cons _ hsub2 =>
        exfalso
        exact (List.nodup_cons.mp hnd).1 (hsub2.subset hhk)
      | cons₂ _ hsub2 =>
        rw [List.filter_cons_of_pos hph]
        congr 1
        refine ih _ hsub2 (List.nodup_cons.mp hnd).2 ?_
        intro e he
        constructor
        · intro hpe
          have := (hiff e (by simp [he])).mp hpe
          cases List.mem_cons.mp this with
          | inl heh =>
            exfalso
            rw [heh] at he
            exact (List.nodup_cons.mp hnd).1 he
          | inr hk => exact hk
        · intro hek
          exact (hiff e (by simp [he])).mpr (by simp [hek])
    | false =>
      have hhk : h ∉ kids := fun hk => by
        have := (hiff h (by simp)).mpr hk
        rw [this] at hph
        cases hph
      cases hsub with
      | cons _ hsub2 =>
        rw [List.filter_cons_of_neg (by simp [hph])]
        exact ih _ hsub2 (List.nodup_cons.mp hnd).2
          (fun e he => hiff e (by simp [he]))
      | cons₂ _ hsub2 =>
        exact absurd (by simp : h ∈ h :: _) hhk

/-- C1 (amended): on a duplicate-free entry list in which `startE` is the
unique entry matching the start lookup for id `s`, and in which the entries
carrying the text `Parent-Event: <s>` are exactly the family's child records
`kids` (in store order), `getEventLogs` returns exactly the start record
followed by the child records: `1 + k + 1` records for a family with `k`
steps and an end record (`1 + k` with no end record).  Without the
marker-exclusivity hypothesis this fails: `Parent-Event: <s>` also occurs in
records of any family whose id extends the digits of `s`. -/
theorem c1_getEventLogs_family (entries : List (List Char)) (s : Nat)
    (startE : List Char) (kids : List (List Char))
    (hnd : entries.Nodup)
    (hsub : kids.Sublist entries)
    (hmem : startE ∈ entries)
    (hstart : (includesSub startE (logIdMarker s) &&
      includesSub startE eventStartMarker) = true)
    (hfirst : ∀ e ∈ entries,
      (includesSub e (logIdMarker s) && includesSub e eventStartMarker) = true →
        e = startE)
    (hkids : ∀ e ∈ entries, (includesSub e (parentMarker s) = true ↔ e ∈ kids)) :
    getEventLogsEntries entries s = startE :: kids ∧
      (getEventLogsEntries entries s).length = 1 + kids.length := by
  have hfind := find?_eq_of_first
    (fun entry => includesSub entry (logIdMarker s) && includesSub entry eventStartMarker)
    entries startE hmem hstart hfirst
  have hfilter := filter_eq_of_sublist
    (fun entry => includesSub entry (parentMarker s)) entries kids hsub hnd hkids
  have hmain : getEventLogsEntries entries s = startE :: kids := by
    rw [getEventLogsEntries, hfind, hfilter]
  refine ⟨hmain, ?_⟩
  rw [hmain]
  simp [Nat.add_comm]

def c1E1 : List Char := "[Log-1] EVENT-START: A\nEvent-Type: event-start".toList

def c1E2 : List Char :=
  "[Log-2] EVENT-END: A\nEvent-Type: event-end\nParent-Event: 1".toList

def c1E3 : List Char := "[Log-12] EVENT-START: B\nEvent-Type: event-start".toList

def c1E4 : List Char :=
  "[Log-13] STEP-1: s\nEvent-Type: event-step\nParent-Event: 12".toList

/-- A store with two event families: family 1 (well formed, `k = 0` steps,
with an end record — so `getFamily(1)` should return exactly 2 records) and
family 12 with one step record. -/
def c1CxContent : List Char := storeOf [c1E1, c1E2, c1E3, c1E4]

/-- C1 counterexample: `getEventLogs 1` on this store returns 3 records, not
2: the step record of family 12 is included, because its text
`Parent-Event: 12` contains the substring `Parent-Event: 1`. -/
theorem c1_getEventLogs_counterexample :
    getEventLogs c1CxContent 1 = [c1E1, c1E2, c1E4] ∧
      (getEventLogs c1CxContent 1).length ≠ 2 ∧
      includesSub c1E4 (parentMarker 12) = true := by
  refine ⟨by decide, by decide, by decide⟩

/-- Closed witness for C1 at a store holding exactly one well-formed family
with no steps and an end record. -/
theorem c1_getEventLogs_family_witness :
    getEventLogsEntries [c1E1, c1E2] 1 = c1E1 :: [c1E2] ∧
      (getEventLogsEntries [c1E1, c1E2] 1).length = 1 + 1 := by
  have h := c1_getEventLogs_family [c1E1, c1E2] 1 c1E1 [c1E2]
    (by decide) ((List.Sublist.refl [c1E2]).cons c1E1) (by decide) (by decide)
    (by decide) (by decide)
  exact ⟨h.1, h.2⟩

/-! ## C4: the `generateScript` linearization (cli.js lines 157-211) -/

/-- The dependency map built by `generateScript` (cli.js lines 162-171): for a
declared node, the sources of the edges targeting it, in edge-declaration
order; for an undeclared id the map holds nothing (`dependencies.get(...)`
is undefined, edges to undeclared targets are dropped, and
`dependencies.get(nodeId) || []` reads as `[]`). -/
def depsOf (nodes : List String) (edges : List (String × String)) (t : String) :
    List String :=
  if nodes.contains t then (edges.filter (fun e => e.2 == t)).map Prod.fst else []

/-- The mutable state of the traversal: the `visited` set and the emitted
`sorted` order. -/
structure DfsState where
  visited : List String
  sorted : List String

/-- The recursive `visit` of `generateScript` (cli.js lines 177-185): skip a
visited node; otherwise mark it visited, visit its dependencies in order,
then emit it (post-order).  The JavaScript recursion carries no fuel; on
inputs whose dependencies stay among the declared nodes a fuel of
`nodes.length + 1` is never exhausted (the fuel hypothesis below is
maintained throughout), so the embedding agrees with the source there. -/
def visitNode (deps : String → List String) : Nat → String → DfsState → DfsState
  | 0, _, st => st
  | Nat.succ fuel, id, st =>
    if st.visited.contains id then st
    else
      let st2 := (deps id).foldl (fun s d => visitNode deps fuel d s)
        { visited := id :: st.visited, sorted := st.sorted }
      { visited := st2.visited, sorted := st2.sorted ++ [id] }

/-- The seed loop of `generateScript` (cli.js line 187): visit every node in
declaration order; the emitted `sorted` list is the linearization. -/
def generateScriptOrder (nodes : List String) (edges : List (String × String)) :
    List String :=
  (nodes.foldl (fun st n => visitNode (depsOf nodes edges) (nodes.length + 1) n st)
    { visited := [], sorted := [] }).sorted

/-- Reachability along dependency edges: `Reach deps x y` holds when `y` is
`x` or a transitive dependency of `x`. -/
def Reach (deps : String → List String) : String → String → Prop :=
  Relation.ReflTransGen (fun x y => y ∈ deps x)

theorem reach_rank_le (deps : String → List String) (rank : String → Nat)
    (hdr : ∀ u d, d ∈ deps u → rank d < rank u) :
    ∀ x y, Reach deps x y → rank y ≤ rank x := by
  intro x y h
  induction h with
  | refl => exact le_refl _
  | tail _ h2 ih => exact le_trans (Nat.le_of_lt (hdr _ _ h2)) ih

theorem length_filter_le_of_imp {α : Type} (l : List α) (p q : α → Bool)
    (h : ∀ x, p x = true → q x = true) :
    (l.filter p).length ≤ (l.filter q).length := by
  induction l with
  | nil => exact le_refl _
  | cons x t ih =>
    cases hp : p x with
    | true =>
      rw [List.filter_cons_of_pos hp, List.filter_cons_of_pos (h x hp)]
      simpa using ih
    | false =>
      rw [List.filter_cons_of_neg (by simp [hp])]
      cases hq : q x with
      | true =>
        rw [List.filter_cons_of_pos hq]
        exact le_trans ih (by simp)
      | false =>
        rw [List.filter_cons_of_neg (by simp [hq])]
        exact ih

/-- Marking a not-yet-visited declared node strictly shrinks the unvisited
part of the node list. -/
theorem filter_visited_lt (nodes : List String) (u : String) (visited : List String)
    (hu : u ∈ nodes) (hnv : ¬ u ∈ visited) :
    (nodes.filter (fun x => !(u :: visited).contains x)).length <
      (nodes.filter (fun x => !visited.contains x)).length := by
  induction nodes with
  | nil => cases hu
  | cons n ns ih =>
    have himp : ∀ x : String, (!(u :: visited).contains x) = true →
        (!visited.contains x) = true := by
      intro x hx
      simp only [Bool.not_eq_true'] at hx ⊢
      simp only [List.contains_cons, Bool.or_eq_false_iff] at hx
      exact hx.2
    by_cases hun : u = n
    · subst hun
      rw [List.filter_cons_of_neg (by simp), List.filter_cons_of_pos (by simpa using hnv)]
      exact Nat.lt_succ_of_le (length_filter_le_of_imp ns _ _ himp)
    · have hu2 : u ∈ ns := by
        cases List.mem_cons.mp hu with
        | inl h => exact absurd h hun
        | inr h => exact h
      by_cases hn : n ∈ visited
      · rw [List.filter_cons_of_neg (by simp [hn]),
          List.filter_cons_of_neg (by simp [hn])]
        exact ih hu2
      · rw [List.filter_cons_of_pos (by
            simp only [Bool.not_eq_true', List.contains_cons, Bool.or_eq_false_iff]
            constructor
            · simp only [beq_eq_false_iff_ne, ne_eq]
              exact fun h => hun h.symm
            · simpa using hn),
          List.filter_cons_of_pos (by simpa using hn)]
        simpa using ih hu2

/-- The invariant of the traversal state: emitted nodes are visited and
pairwise distinct, visited ids are declared nodes, and every dependency of an
emitted node is emitted before it. -/
structure VisitInv (deps : String → List String) (nodes : List String)
    (st : DfsState) : Prop where
  sortedSubVisited : ∀ x ∈ st.sorted, x ∈ st.visited
  sortedNodup : st.sorted.Nodup
  visitedSubNodes : ∀ x ∈ st.visited, x ∈ nodes
  sortedDeps : ∀ u ∈ st.sorted, ∀ d ∈ deps u,
    ∃ l1 l2, st.sorted = l1 ++ d :: l2 ∧ u ∈ l2

/-- What one call of `visit` guarantees: visited grows, sorted is extended,
every newly visited node is reachable from the argument, the grey set
(visited but not yet emitted) is unchanged, the argument ends visited (and
emitted unless it was already grey), and the invariant is preserved. -/
structure VisitSpec (deps : String → List String) (nodes : List String)
    (u : String) (st st' : DfsState) : Prop where
  visitedMono : ∀ x ∈ st.visited, x ∈ st'.visited
  sortedExt : ∃ d, st'.sorted = st.sorted ++ d
  visitedReach : ∀ x ∈ st'.visited, x ∈ st.visited ∨ Reach deps u x
  greyNew : ∀ g, g ∈ st'.visited → g ∉ st'.sorted → (g ∈ st.visited ∧ g ∉ st.sorted)
  greyOld : ∀ g, g ∈ st.visited → g ∉ st.sorted → g ∉ st'.sorted
  uVisited : u ∈ st'.visited
  uDone : u ∉ st.visited → u ∈ st'.sorted
  inv : VisitInv deps nodes st'

/-- Correctness of one `visit` call, by induction on the fuel, given a rank
function that decreases along dependency edges (the DAG hypothesis) and
dependencies that stay among the declared nodes. -/
theorem visitNode_spec (deps : String → List String) (nodes : List String)
    (rank : String → Nat)
    (hdr : ∀ u d, d ∈ deps u → rank d < rank u)
    (hdn : ∀ u d, d ∈ deps u → d ∈ nodes) :
    ∀ (fuel : Nat) (u : String) (st : DfsState),
      u ∈ nodes →
      (nodes.filter (fun x => !st.visited.contains x)).length < fuel →
      VisitInv deps nodes st →
      (∀ g, g ∈ st.visited → g ∉ st.sorted → Reach deps g u) →
      VisitSpec deps nodes u st (visitNode deps fuel u st) := by
  intro fuel
  induction fuel with
  | zero =>
    intro u st _ hfuel _ _
    exact absurd hfuel (Nat.not_lt_zero _)
  | succ fuel ih =>
    intro u st hu hfuel hinv hgrey
    by_cases hv : u ∈ st.visited
    · have hvb : st.visited.contains u = true := by simpa using hv
      rw [show visitNode deps (fuel + 1) u st = st from by
        simp only [visitNode, hvb]
        simp]
      exact {
        visitedMono := fun x h => h
        sortedExt := ⟨[], by simp⟩
        visitedReach := fun x h => Or.inl h
        greyNew := fun g h1 h2 => ⟨h1, h2⟩
        greyOld := fun g _ h2 => h2
        uVisited := hv
        uDone := fun h => absurd hv h
        inv := hinv }
    · have hvb : st.visited.contains u = false := by simpa using hv
      have hustep : visitNode deps (fuel + 1) u st =
          { visited := ((deps u).foldl (fun s d => visitNode deps fuel d s)
              { visited := u :: st.visited, sorted := st.sorted }).visited,
            sorted := ((deps u).foldl (fun s d => visitNode deps fuel d s)
              { visited := u :: st.visited, sorted := st.sorted }).sorted ++ [u] } := by
        simp only [visitNode, hvb]
        simp
      have hinv1 : VisitInv deps nodes
          { visited := u :: st.visited, sorted := st.sorted } := {
        sortedSubVisited := fun x h => List.mem_cons_of_mem _ (hinv.sortedSubVisited x h)
        sortedNodup := hinv.sortedNodup
        visitedSubNodes := by
          intro x hx
          cases List.mem_cons.mp hx with
          | inl h => rw [h]; exact hu
          | inr h => exact hinv.visitedSubNodes x h
        sortedDeps := hinv.sortedDeps }
      have hu_not_sorted : u ∉ st.sorted := fun h => hv (hinv.sortedSubVisited u h)
      have hfuel1 :
          (nodes.filter (fun x => !(u :: st.visited).contains x)).length < fuel := by
        have := filter_visited_lt nodes u st.visited hu hv
        omega
      have hfold : ∀ (ds : List String) (s : DfsState),
          (∀ d ∈ ds, d ∈ deps u) →
          (nodes.filter (fun x => !s.visited.contains x)).length < fuel →
          VisitInv deps nodes s →
          (∀ g, g ∈ s.visited → g ∉ s.sorted → Reach deps g u) →
          u ∈ s.visited → u ∉ s.sorted →
          ((∀ x ∈ s.visited,
              x ∈ (ds.foldl (fun a d => visitNode deps fuel d a) s).visited) ∧
            (∃ d2, (ds.foldl (fun a d => visitNode deps fuel d a) s).sorted =
              s.sorted ++ d2) ∧
            (∀ x ∈ (ds.foldl (fun a d => visitNode deps fuel d a) s).visited,
              x ∈ s.visited ∨ ∃ d ∈ ds, Reach deps d x) ∧
            (∀ g, g ∈ (ds.foldl (fun a d => visitNode deps fuel d a) s).visited →
              g ∉ (ds.foldl (fun a d => visitNode deps fuel d a) s).sorted →
              (g ∈ s.visited ∧ g ∉ s.sorted)) ∧
            (∀ g, g ∈ s.visited → g ∉ s.sorted →
              g ∉ (ds.foldl (fun a d => visitNode deps fuel d a) s).sorted) ∧
            VisitInv deps nodes (ds.foldl (fun a d => visitNode deps fuel d a) s) ∧
            (∀ d ∈ ds, d ∈ (ds.foldl (fun a d => visitNode deps fuel d a) s).visited) ∧
            (∀ d ∈ ds, d ∈ (ds.foldl (fun a d => visitNode deps fuel d a) s).sorted ∨
              (d ∈ s.visited ∧ d ∉ s.sorted))) := by
        intro ds
        induction ds with
        | nil =>
          intro s _ _ hinv2 _ _ _
          refine ⟨fun x h => h, ⟨[], by simp⟩, fun x h => Or.inl h,
            fun g h1 h2 => ⟨h1, h2⟩, fun g _ h2 => h2, hinv2, ?_, ?_⟩
          · intro d hd; cases hd
          · intro d hd; cases hd
        | cons d ds2 ihds =>
          intro s hds hfuel2 hinv2 hgrey2 husv huss
          have hdd : d ∈ deps u := hds d (List.mem_cons_self d ds2)
          have hspec := ih d s (hdn u d hdd) hfuel2 hinv2
            (fun g hg1 hg2 => Relation.ReflTransGen.tail (hgrey2 g hg1 hg2) hdd)
          have hfuel3 : (nodes.filter
              (fun x => !(visitNode deps fuel d s).visited.contains x)).length < fuel := by
            refine lt_of_le_of_lt (length_filter_le_of_imp nodes _ _ ?_) hfuel2
            intro x hx
            simp only [Bool.not_eq_true'] at hx ⊢
            cases hsv : s.visited.contains x with
            | false => rfl
            | true =>
              exfalso
              have hmem : x ∈ (visitNode deps fuel d s).visited :=
                hspec.visitedMono x (by simpa using hsv)
              rw [show (visitNode deps fuel d s).visited.contains x = true from by
                simpa using hmem] at hx
              cases hx
          have hrest := ihds (visitNode deps fuel d s)
            (fun x hx => hds x (List.mem_cons_of_mem d hx))
            hfuel3 hspec.inv
            (fun g hg1 hg2 => by
              have h3 := hspec.greyNew g hg1 hg2
              exact hgrey2 g h3.1 h3.2)
            (hspec.visitedMono u husv)
            (hspec.greyOld u husv huss)
          rw [show (d :: ds2).foldl (fun a x => visitNode deps fuel x a) s =
              ds2.foldl (fun a x => visitNode deps fuel x a)
                (visitNode deps fuel d s) from rfl]
          obtain ⟨m1, ⟨d1, he1⟩, r1, gn1, go1, inv1, dv1, db1⟩ := hrest
          refine ⟨?_, ?_, ?_, ?_, ?_, inv1, ?_, ?_⟩
          · exact fun x h => m1 x (hspec.visitedMono x h)
          · obtain ⟨d0, he0⟩ := hspec.sortedExt
            exact ⟨d0 ++ d1, by rw [he1, he0, List.append_assoc]⟩
          · intro x hx
            cases r1 x hx with
            | inl h =>
              cases hspec.visitedReach x h with
              | inl h2 => exact Or.inl h2
              | inr h2 => exact Or.inr ⟨d, List.mem_cons_self d ds2, h2⟩
            | inr h =>
              obtain ⟨d2, hd2, hr⟩ := h
              exact Or.inr ⟨d2, List.mem_cons_of_mem d hd2, hr⟩
          · intro g h1 h2
            have h3 := gn1 g h1 h2
            exact hspec.greyNew g h3.1 h3.2
          · intro g h1 h2
            exact go1 g (hspec.visitedMono g h1) (hspec.greyOld g h1 h2)
          · intro d2 hd2
            cases List.mem_cons.mp hd2 with
            | inl he => rw [he]; exact m1 d hspec.uVisited
            | inr ht => exact dv1 d2 ht
          · intro d2 hd2
            cases List.mem_cons.mp hd2 with
            | inl he =>
              rw [he]
              by_cases hdv : d ∈ s.visited
              · by_cases hdso : d ∈ s.sorted
                · left
                  obtain ⟨d0, he0⟩ := hspec.sortedExt
                  rw [he1, he0]
                  exact List.mem_append_left _ (List.mem_append_left _ hdso)
                · right; exact ⟨hdv, hdso⟩
              · left
                have hds1 : d ∈ (visitNode deps fuel d s).sorted := hspec.uDone hdv
                rw [he1]
                exact List.mem_append_left _ hds1
            | inr ht =>
              cases db1 d2 ht with
              | inl h => exact Or.inl h
              | inr h => exact Or.inr (hspec.greyNew d2 h.1 h.2)
      have hfold2 := hfold (deps u) { visited := u :: st.visited, sorted := st.sorted }
        (fun d hd => hd) hfuel1 hinv1
        (by
          intro g hg1 hg2
          cases List.mem_cons.mp hg1 with
          | inl he => rw [he]; exact Relation.ReflTransGen.refl
          | inr hgm => exact hgrey g hgm hg2)
        (List.mem_cons_self _ _) hu_not_sorted
      obtain ⟨m1, ⟨d1, he1⟩, r1, gn1, go1, inv1, dv1, db1⟩ := hfold2
      have hdeps_sorted : ∀ d ∈ deps u,
          d ∈ ((deps u).foldl (fun a x => visitNode deps fuel x a)
            { visited := u :: st.visited, sorted := st.sorted }).sorted := by
        intro d hd
        cases db1 d hd with
        | inl h => exact h
        | inr h =>
          exfalso
          cases List.mem_cons.mp h.1 with
          | inl he =>
            have hlt := hdr u d hd
            rw [he] at hlt
            omega
          | inr hdm =>
            have hre := hgrey d hdm h.2
            have hle := reach_rank_le deps rank hdr d u hre
            have hlt := hdr u d hd
            omega
      have hu_not_sorted2 : u ∉ ((deps u).foldl (fun a x => visitNode deps fuel x a)
          { visited := u :: st.visited, sorted := st.sorted }).sorted :=
        go1 u (List.mem_cons_self _ _) hu_not_sorted
      rw [hustep]
      exact {
        visitedMono := fun x h => m1 x (List.mem_cons_of_mem _ h)
        sortedExt := ⟨d1 ++ [u], by
          rw [show ({ visited := _, sorted := ((deps u).foldl
              (fun a x => visitNode deps fuel x a)
              { visited := u :: st.visited, sorted := st.sorted }).sorted ++ [u] } :
                DfsState).sorted = ((deps u).foldl (fun a x => visitNode deps fuel x a)
              { visited := u :: st.visited, sorted := st.sorted }).sorted ++ [u] from rfl]
          rw [he1]
          rw [show ({ visited := u :: st.visited, sorted := st.sorted } :
            DfsState).sorted = st.sorted from rfl]
          rw [List.append_assoc]⟩
        visitedReach := by
          intro x hx
          cases r1 x hx with
          | inl h =>
            cases List.mem_cons.mp h with
            | inl he => exact Or.inr (he ▸ Relation.ReflTransGen.refl)
            | inr hm => exact Or.inl hm
          | inr h =>
            obtain ⟨d2, hd2, hr⟩ := h
            exact Or.inr (Relation.ReflTransGen.head hd2 hr)
        greyNew := by
          intro g h1 h2
          simp only [List.mem_append, List.mem_singleton] at h2
          push_neg at h2
          have h3 := gn1 g h1 h2.1
          cases List.mem_cons.mp h3.1 with
          | inl he => exact absurd he h2.2
          | inr hm => exact ⟨hm, h3.2⟩
        greyOld := by
          intro g h1 h2
          have hne : g ≠ u := fun he => hv (he ▸ h1)
          have h3 := go1 g (List.mem_cons_of_mem _ h1) h2
          simp only [List.mem_append, List.mem_singleton]
          push_neg
          exact ⟨h3, hne⟩
        uVisited := m1 u (List.mem_cons_self _ _)
        uDone := fun _ => List.mem_append_right _ (List.mem_singleton_self u)
        inv := {
          sortedSubVisited := by
            intro x hx
            cases List.mem_append.mp hx with
            | inl h => exact inv1.sortedSubVisited x h
            | inr h =>
              rw [List.mem_singleton.mp h]
              exact m1 u (List.mem_cons_self _ _)
          sortedNodup := by
            rw [List.nodup_append]
            exact ⟨inv1.sortedNodup, List.nodup_singleton u,
              fun a ha hau => hu_not_sorted2 ((List.mem_singleton.mp hau) ▸ ha)⟩
          visitedSubNodes := inv1.visitedSubNodes
          sortedDeps := by
            intro v hv2 d hd
            cases List.mem_append.mp hv2 with
            | inl hvs =>
              obtain ⟨l1, l2, heq, hm⟩ := inv1.sortedDeps v hvs d hd
              exact ⟨l1, l2 ++ [u], by rw [heq, List.append_assoc]; rfl,
                List.mem_append_left _ hm⟩
            | inr hvu =>
              rw [List.mem_singleton.mp hvu] at hd ⊢
              obtain ⟨l1, l2, heq⟩ := List.append_of_mem (hdeps_sorted d hd)
              exact ⟨l1, l2 ++ [u], by rw [heq, List.append_assoc]; rfl,
                List.mem_append_right _ (List.mem_singleton_self u)⟩ } }

/-- Correctness of the seed loop: starting grey-free and invariant-holding,
it ends grey-free and invariant-holding with every seed visited. -/
theorem seedsFold_spec (deps : String → List String) (nodes : List String)
    (rank : String → Nat)
    (hdr : ∀ u d, d ∈ deps u → rank d < rank u)
    (hdn : ∀ u d, d ∈ deps u → d ∈ nodes) :
    ∀ (ns : List String) (st : DfsState),
      (∀ n ∈ ns, n ∈ nodes) →
      VisitInv deps nodes st →
      (∀ g ∈ st.visited, g ∈ st.sorted) →
      (VisitInv deps nodes
          (ns.foldl (fun a n => visitNode deps (nodes.length + 1) n a) st) ∧
        (∀ g ∈ (ns.foldl (fun a n => visitNode deps (nodes.length + 1) n a) st).visited,
          g ∈ (ns.foldl (fun a n => visitNode deps (nodes.length + 1) n a) st).sorted) ∧
        (∀ n ∈ ns,
          n ∈ (ns.foldl (fun a n => visitNode deps (nodes.length + 1) n a) st).visited)) := by
  intro ns
  induction ns with
  | nil =>
    intro st _ hinv hng
    exact ⟨hinv, hng, fun n hn => absurd hn (List.not_mem_nil n)⟩
  | cons n ns2 ih =>
    intro st hns hinv hng
    have hn : n ∈ nodes := hns n (List.mem_cons_self n ns2)
    have hfuel : (nodes.filter (fun x => !st.visited.contains x)).length <
        nodes.length + 1 :=
      Nat.lt_succ_of_le (by simpa using List.length_filter_le _ nodes)
    have hspec := visitNode_spec deps nodes rank hdr hdn (nodes.length + 1) n st hn hfuel
      hinv (fun g hg1 hg2 => absurd (hng g hg1) hg2)
    have hng1 : ∀ g ∈ (visitNode deps (nodes.length + 1) n st).visited,
        g ∈ (visitNode deps (nodes.length + 1) n st).sorted := by
      intro g hg
      by_cases hgs : g ∈ (visitNode deps (nodes.length + 1) n st).sorted
      · exact hgs
      · exact absurd (hng g (hspec.greyNew g hg hgs).1) (hspec.greyNew g hg hgs).2
    have hrest := ih (visitNode deps (nodes.length + 1) n st)
      (fun x hx => hns x (List.mem_cons_of_mem n hx)) hspec.inv hng1
    rw [show (n :: ns2).foldl (fun a x => visitNode deps (nodes.length + 1) x a) st =
      ns2.foldl (fun a x => visitNode deps (nodes.length + 1) x a)
        (visitNode deps (nodes.length + 1) n st) from rfl]
    refine ⟨hrest.1, hrest.2.1, ?_⟩
    intro x hx
    cases List.mem_cons.mp hx with
    | inl he =>
      rw [he]
      -- visited monotone along the rest of the fold
      have : ∀ (ms : List String) (s : DfsState) (y : String), y ∈ s.visited →
          (∀ m ∈ ms, m ∈ nodes) → VisitInv deps nodes s →
          (∀ g ∈ s.visited, g ∈ s.sorted) →
          y ∈ (ms.foldl (fun a m => visitNode deps (nodes.length + 1) m a) s).visited := by
        intro ms
        induction ms with
        | nil => intro s y hy _ _ _; exact hy
        | cons m ms2 ihm =>
          intro s y hy hms hinv2 hng2
          have hfuel2 : (nodes.filter (fun x => !s.visited.contains x)).length <
              nodes.length + 1 :=
            Nat.lt_succ_of_le (by simpa using List.length_filter_le _ nodes)
          have hspec2 := visitNode_spec deps nodes rank hdr hdn (nodes.length + 1) m s
            (hms m (List.mem_cons_self m ms2)) hfuel2 hinv2
            (fun g hg1 hg2 => absurd (hng2 g hg1) hg2)
          have hng3 : ∀ g ∈ (visitNode deps (nodes.length + 1) m s).visited,
              g ∈ (visitNode deps (nodes.length + 1) m s).sorted := by
            intro g hg
            by_cases hgs : g ∈ (visitNode deps (nodes.length + 1) m s).sorted
            · exact hgs
            · exact absurd (hng2 g (hspec2.greyNew g hg hgs).1) (hspec2.greyNew g hg hgs).2
          exact ihm (visitNode deps (nodes.length + 1) m s) y
            (hspec2.visitedMono y hy) (fun x hx => hms x (List.mem_cons_of_mem m hx))
            hspec2.inv hng3
      exact this ns2 (visitNode deps (nodes.length + 1) n st) n hspec.uVisited
        (fun x hx => hns x (List.mem_cons_of_mem n hx)) hspec.inv hng1
    | inr hm => exact hrest.2.2 x hm

/-- C4: for a workflow whose edges form a DAG over its declared nodes
(witnessed by a rank function that strictly increases along every edge, with
all edge endpoints declared), the linearization emitted by `generateScript`
places every node after all of its dependencies: for every edge
`source → target`, `source` appears strictly before `target` in the emitted
order. -/
theorem c4_generateScript_topological (nodes : List String)
    (edges : List (String × String)) (rank : String → Nat)
    (hrank : ∀ e ∈ edges, rank e.1 < rank e.2)
    (hsrc : ∀ e ∈ edges, e.1 ∈ nodes)
    (htgt : ∀ e ∈ edges, e.2 ∈ nodes) :
    ∀ e ∈ edges, ∃ l1 l2,
      generateScriptOrder nodes edges = l1 ++ e.1 :: l2 ∧ e.2 ∈ l2 := by
  have hdep_mem : ∀ u d, d ∈ depsOf nodes edges u → (d, u) ∈ edges := by
    intro u d hd
    rw [depsOf] at hd
    by_cases hu : nodes.contains u
    · rw [if_pos hu] at hd
      rw [List.mem_map] at hd
      obtain ⟨e2, he2, hfst⟩ := hd
      have hsnd : e2.2 = u := by simpa using List.of_mem_filter he2
      have hmem := List.mem_of_mem_filter he2
      rw [← hfst, ← hsnd]
      exact hmem
    · rw [if_neg hu] at hd
      cases hd
  have hdr : ∀ u d, d ∈ depsOf nodes edges u → rank d < rank u := by
    intro u d hd
    exact hrank (d, u) (hdep_mem u d hd)
  have hdn : ∀ u d, d ∈ depsOf nodes edges u → d ∈ nodes := by
    intro u d hd
    exact hsrc (d, u) (hdep_mem u d hd)
  have hinit : VisitInv (depsOf nodes edges) nodes { visited := [], sorted := [] } := {
    sortedSubVisited := fun x h => absurd h (List.not_mem_nil x)
    sortedNodup := List.nodup_nil
    visitedSubNodes := fun x h => absurd h (List.not_mem_nil x)
    sortedDeps := fun u h => absurd h (List.not_mem_nil u) }
  have hseeds := seedsFold_spec (depsOf nodes edges) nodes rank hdr hdn nodes
    { visited := [], sorted := [] } (fun n h => h) hinit
    (fun g hg => absurd hg (List.not_mem_nil g))
  intro e he
  have htv : e.2 ∈ (nodes.foldl
      (fun a n => visitNode (depsOf nodes edges) (nodes.length + 1) n a)
      { visited := [], sorted := [] }).visited :=
    hseeds.2.2 e.2 (htgt e he)
  have hts : e.2 ∈ (nodes.foldl
      (fun a n => visitNode (depsOf nodes edges) (nodes.length + 1) n a)
      { visited := [], sorted := [] }).sorted :=
    hseeds.2.1 e.2 htv
  have hdep : e.1 ∈ depsOf nodes edges e.2 := by
    rw [depsOf, if_pos (by simpa using htgt e he)]
    rw [List.mem_map]
    refine ⟨e, List.mem_filter.mpr ⟨he, by simp⟩, rfl⟩
  obtain ⟨l1, l2, heq, hm⟩ := hseeds.1.sortedDeps e.2 hts e.1 hdep
  exact ⟨l1, l2, heq, hm⟩

def c4WitnessNodes : List String := ["build", "test"]

def c4WitnessEdges : List (String × String) := [("build", "test")]

/-- Closed witness for C4 at a two-node, one-edge DAG. -/
theorem c4_generateScript_topological_witness :
    (∃ l1 l2, generateScriptOrder c4WitnessNodes c4WitnessEdges =
      l1 ++ "build" :: l2 ∧ "test" ∈ l2) ∧
      generateScriptOrder c4WitnessNodes c4WitnessEdges = ["build", "test"] := by
  refine ⟨c4_generateScript_topological c4WitnessNodes c4WitnessEdges
    (fun s => if s = "build" then 0 else 1) (by decide) (by decide) (by decide)
    ("build", "test") (by decide), by decide⟩
